import Mathlib

/-!
# Verification of the anchorpy borsh codec against its specification

This development gives a shallow embedding of `src/anchorpy/borsh.py`
(and `src/src/anchorpy/coder/accounts.py`) in Lean 4 and settles the
specification claims about it.

Conventions:
* Byte streams are `List Nat`, each element intended to be `< 256`.
* Machine integers are `Nat`/`Int` with explicit bounds and `% 2 ^ w`.
* Fallible operations return `Except Err`.
* Python dynamic errors (struct.pack range errors, `IndexError`,
  `KeyError`, `TypeError`, `ValueError`, construct stream underflow,
  …) are all modelled as constructors of `Err`.
-/

namespace Borsh

/-- Error values: every way a Python-level exception can abort an
encode/decode/schema-construction call in the embedded code. -/
inductive Err where
  /-- construct `stream_read` past end of stream. -/
  | underflow : Err
  /-- `struct.pack` / `BytesInteger` range failure on out-of-range integer. -/
  | range : Err
  /-- `ValueError("Borsh does not support nan.")` from `FormatFieldNoNan`. -/
  | nan : Err
  /-- `bytes.decode("utf8")` failure on malformed UTF-8. -/
  | utf8 : Err
  /-- Python `TypeError` (e.g. `dict()` / `set()` on unhashable keys). -/
  | typeErr : Err
  /-- Python `KeyError` (missing dict key during build / adapter decode). -/
  | keyErr : Err
  /-- Python `IndexError` (list index out of range, `name[0]` on `""`). -/
  | indexErr : Err
  /-- Length mismatch when building a fixed-size `Array`/`Sequence`. -/
  | lenMismatch : Err
  /-- `ValueError("Unnamed struct fields not allowed.")` -/
  | unnamedField : Err
  /-- `ValueError` for the reserved name `tuple_data`. -/
  | reservedName : Err
  /-- `ValueError("Variant names cannot start with an underscore.")` -/
  | underscoreName : Err
  /-- `ValueError("Unnamed enum variants not allowed.")` -/
  | unnamedVariant : Err
  /-- `ValueError("Unrecognized variant type: ...")` -/
  | unrecognizedVariant : Err
  /-- `ValueError(f"Unexpected type: {subcon}")` in `_calc_bytes_to_read`. -/
  | unexpectedType : Err
  deriving DecidableEq, Repr

/-- Split a stream: read exactly `n` bytes (construct `stream_read`),
failing with stream underflow when fewer remain. -/
def readN (n : Nat) (s : List Nat) : Except Err (List Nat × List Nat) :=
  if n ≤ s.length then .ok (s.take n, s.drop n) else .error .underflow

theorem readN_append (bs rest : List Nat) :
    readN bs.length (bs ++ rest) = .ok (bs, rest) := by
  simp [readN]

/-- Little-endian byte encoding of `n` in exactly `w` bytes
(the byte order produced by `struct.pack("<...")` and by
`BytesInteger(_, swapped=True)`). -/
def toLE : Nat → Nat → List Nat
  | 0, _ => []
  | w + 1, n => n % 256 :: toLE w (n / 256)

/-- Little-endian read-back of a byte list. -/
def fromLE : List Nat → Nat
  | [] => 0
  | b :: bs => b + 256 * fromLE bs

@[simp] theorem toLE_length (w n : Nat) : (toLE w n).length = w := by
  induction w generalizing n with
  | zero => rfl
  | succ w ih => simp [toLE, ih]

theorem fromLE_toLE (w n : Nat) (h : n < 256 ^ w) : fromLE (toLE w n) = n := by
  induction w generalizing n with
  | zero => simp [toLE, fromLE]; omega
  | succ w ih =>
    have hlt : n / 256 < 256 ^ w := by
      rw [Nat.div_lt_iff_lt_mul (by norm_num)]
      calc n < 256 ^ (w + 1) := h
        _ = 256 ^ w * 256 := by ring
    simp [toLE, fromLE, ih _ hlt]
    omega

theorem toLE_lt (w n : Nat) : ∀ b ∈ toLE w n, b < 256 := by
  induction w generalizing n with
  | zero => simp [toLE]
  | succ w ih =>
    intro b hb
    simp only [toLE, List.mem_cons] at hb
    rcases hb with h | h
    · omega
    · exact ih _ _ h

/-! ## Values

A `Value` is the Lean image of the Python values the codec consumes and
produces: bools, ints, floats, `bytes`, `str`, `None`, tuples/lists,
dicts, sets, struct containers, and sum-type (enum) instances.

* Floats (`vF32`/`vF64`) are represented by their IEEE-754 bit pattern
  (a `Nat` below `2 ^ 32` / `2 ^ 64`): `struct.pack`/`struct.unpack`
  translate bijectively between a non-NaN Python float of the given
  width and its bit pattern, so round-trip statements over bit patterns
  are exactly round-trip statements over the floats themselves.
* Strings (`vStr`) are lists of Unicode code points (what Python
  indexes and compares), encoded to bytes through UTF-8 below.
* Python `dict` and `set` values compare (`==`) without regard to
  insertion/iteration order, so a dict/set value is represented
  canonically; the admissibility predicate below requires the canonical
  (strictly sorted) representation, mirroring the fact that equal
  Python dicts/sets are a single value.
-/
inductive Value where
  | vBool (b : Bool)
  | vInt (n : Int)
  | vF32 (bits : Nat)
  | vF64 (bits : Nat)
  | vBytes (bs : List Nat)
  | vStr (cs : List Nat)
  | vNone
  | vList (xs : List Value)
  | vDict (entries : List (Value × Value))
  | vSet (xs : List Value)
  | vRec (fields : List (String × Value))
  | vEnum (idx : Nat) (payload : Value)
  deriving Repr

mutual

/-- Structural equality test on values (Python `==` on same-kind
values; used to supply `DecidableEq Value`). -/
def beqValue : Value → Value → Bool
  | .vBool a, .vBool b => a == b
  | .vInt a, .vInt b => a == b
  | .vF32 a, .vF32 b => a == b
  | .vF64 a, .vF64 b => a == b
  | .vBytes a, .vBytes b => a == b
  | .vStr a, .vStr b => a == b
  | .vNone, .vNone => true
  | .vList a, .vList b => beqValueList a b
  | .vDict a, .vDict b => beqValuePairs a b
  | .vSet a, .vSet b => beqValueList a b
  | .vRec a, .vRec b => beqValueFields a b
  | .vEnum i p, .vEnum j q => i == j && beqValue p q
  | _, _ => false

/-- Pointwise equality on value lists. -/
def beqValueList : List Value → List Value → Bool
  | [], [] => true
  | a :: as, b :: bs => beqValue a b && beqValueList as bs
  | _, _ => false

/-- Pointwise equality on entry lists. -/
def beqValuePairs : List (Value × Value) → List (Value × Value) → Bool
  | [], [] => true
  | (a, x) :: as, (b, y) :: bs =>
      beqValue a b && beqValue x y && beqValuePairs as bs
  | _, _ => false

/-- Pointwise equality on field lists. -/
def beqValueFields : List (String × Value) → List (String × Value) → Bool
  | [], [] => true
  | (a, x) :: as, (b, y) :: bs =>
      a == b && beqValue x y && beqValueFields as bs
  | _, _ => false

end

mutual

theorem beqValue_iff : ∀ a b : Value, beqValue a b = true ↔ a = b
  | .vBool a, .vBool b => by simp [beqValue]
  | .vInt a, .vInt b => by simp [beqValue]
  | .vF32 a, .vF32 b => by simp [beqValue]
  | .vF64 a, .vF64 b => by simp [beqValue]
  | .vBytes a, .vBytes b => by simp [beqValue]
  | .vStr a, .vStr b => by simp [beqValue]
  | .vNone, .vNone => by simp [beqValue]
  | .vList a, .vList b => by simp [beqValue, beqValueList_iff a b]
  | .vDict a, .vDict b => by simp [beqValue, beqValuePairs_iff a b]
  | .vSet a, .vSet b => by simp [beqValue, beqValueList_iff a b]
  | .vRec a, .vRec b => by simp [beqValue, beqValueFields_iff a b]
  | .vEnum i p, .vEnum j q => by
      simp [beqValue, beqValue_iff p q]
  | .vBool _, .vInt _ => by simp [beqValue]
  | .vBool _, .vF32 _ => by simp [beqValue]
  | .vBool _, .vF64 _ => by simp [beqValue]
  | .vBool _, .vBytes _ => by simp [beqValue]
  | .vBool _, .vStr _ => by simp [beqValue]
  | .vBool _, .vNone => by simp [beqValue]
  | .vBool _, .vList _ => by simp [beqValue]
  | .vBool _, .vDict _ => by simp [beqValue]
  | .vBool _, .vSet _ => by simp [beqValue]
  | .vBool _, .vRec _ => by simp [beqValue]
  | .vBool _, .vEnum _ _ => by simp [beqValue]
  | .vInt _, .vBool _ => by simp [beqValue]
  | .vInt _, .vF32 _ => by simp [beqValue]
  | .vInt _, .vF64 _ => by simp [beqValue]
  | .vInt _, .vBytes _ => by simp [beqValue]
  | .vInt _, .vStr _ => by simp [beqValue]
  | .vInt _, .vNone => by simp [beqValue]
  | .vInt _, .vList _ => by simp [beqValue]
  | .vInt _, .vDict _ => by simp [beqValue]
  | .vInt _, .vSet _ => by simp [beqValue]
  | .vInt _, .vRec _ => by simp [beqValue]
  | .vInt _, .vEnum _ _ => by simp [beqValue]
  | .vF32 _, .vBool _ => by simp [beqValue]
  | .vF32 _, .vInt _ => by simp [beqValue]
  | .vF32 _, .vF64 _ => by simp [beqValue]
  | .vF32 _, .vBytes _ => by simp [beqValue]
  | .vF32 _, .vStr _ => by simp [beqValue]
  | .vF32 _, .vNone => by simp [beqValue]
  | .vF32 _, .vList _ => by simp [beqValue]
  | .vF32 _, .vDict _ => by simp [beqValue]
  | .vF32 _, .vSet _ => by simp [beqValue]
  | .vF32 _, .vRec _ => by simp [beqValue]
  | .vF32 _, .vEnum _ _ => by simp [beqValue]
  | .vF64 _, .vBool _ => by simp [beqValue]
  | .vF64 _, .vInt _ => by simp [beqValue]
  | .vF64 _, .vF32 _ => by simp [beqValue]
  | .vF64 _, .vBytes _ => by simp [beqValue]
  | .vF64 _, .vStr _ => by simp [beqValue]
  | .vF64 _, .vNone => by simp [beqValue]
  | .vF64 _, .vList _ => by simp [beqValue]
  | .vF64 _, .vDict _ => by simp [beqValue]
  | .vF64 _, .vSet _ => by simp [beqValue]
  | .vF64 _, .vRec _ => by simp [beqValue]
  | .vF64 _, .vEnum _ _ => by simp [beqValue]
  | .vBytes _, .vBool _ => by simp [beqValue]
  | .vBytes _, .vInt _ => by simp [beqValue]
  | .vBytes _, .vF32 _ => by simp [beqValue]
  | .vBytes _, .vF64 _ => by simp [beqValue]
  | .vBytes _, .vStr _ => by simp [beqValue]
  | .vBytes _, .vNone => by simp [beqValue]
  | .vBytes _, .vList _ => by simp [beqValue]
  | .vBytes _, .vDict _ => by simp [beqValue]
  | .vBytes _, .vSet _ => by simp [beqValue]
  | .vBytes _, .vRec _ => by simp [beqValue]
  | .vBytes _, .vEnum _ _ => by simp [beqValue]
  | .vStr _, .vBool _ => by simp [beqValue]
  | .vStr _, .vInt _ => by simp [beqValue]
  | .vStr _, .vF32 _ => by simp [beqValue]
  | .vStr _, .vF64 _ => by simp [beqValue]
  | .vStr _, .vBytes _ => by simp [beqValue]
  | .vStr _, .vNone => by simp [beqValue]
  | .vStr _, .vList _ => by simp [beqValue]
  | .vStr _, .vDict _ => by simp [beqValue]
  | .vStr _, .vSet _ => by simp [beqValue]
  | .vStr _, .vRec _ => by simp [beqValue]
  | .vStr _, .vEnum _ _ => by simp [beqValue]
  | .vNone, .vBool _ => by simp [beqValue]
  | .vNone, .vInt _ => by simp [beqValue]
  | .vNone, .vF32 _ => by simp [beqValue]
  | .vNone, .vF64 _ => by simp [beqValue]
  | .vNone, .vBytes _ => by simp [beqValue]
  | .vNone, .vStr _ => by simp [beqValue]
  | .vNone, .vList _ => by simp [beqValue]
  | .vNone, .vDict _ => by simp [beqValue]
  | .vNone, .vSet _ => by simp [beqValue]
  | .vNone, .vRec _ => by simp [beqValue]
  | .vNone, .vEnum _ _ => by simp [beqValue]
  | .vList _, .vBool _ => by simp [beqValue]
  | .vList _, .vInt _ => by simp [beqValue]
  | .vList _, .vF32 _ => by simp [beqValue]
  | .vList _, .vF64 _ => by simp [beqValue]
  | .vList _, .vBytes _ => by simp [beqValue]
  | .vList _, .vStr _ => by simp [beqValue]
  | .vList _, .vNone => by simp [beqValue]
  | .vList _, .vDict _ => by simp [beqValue]
  | .vList _, .vSet _ => by simp [beqValue]
  | .vList _, .vRec _ => by simp [beqValue]
  | .vList _, .vEnum _ _ => by simp [beqValue]
  | .vDict _, .vBool _ => by simp [beqValue]
  | .vDict _, .vInt _ => by simp [beqValue]
  | .vDict _, .vF32 _ => by simp [beqValue]
  | .vDict _, .vF64 _ => by simp [beqValue]
  | .vDict _, .vBytes _ => by simp [beqValue]
  | .vDict _, .vStr _ => by simp [beqValue]
  | .vDict _, .vNone => by simp [beqValue]
  | .vDict _, .vList _ => by simp [beqValue]
  | .vDict _, .vSet _ => by simp [beqValue]
  | .vDict _, .vRec _ => by simp [beqValue]
  | .vDict _, .vEnum _ _ => by simp [beqValue]
  | .vSet _, .vBool _ => by simp [beqValue]
  | .vSet _, .vInt _ => by simp [beqValue]
  | .vSet _, .vF32 _ => by simp [beqValue]
  | .vSet _, .vF64 _ => by simp [beqValue]
  | .vSet _, .vBytes _ => by simp [beqValue]
  | .vSet _, .vStr _ => by simp [beqValue]
  | .vSet _, .vNone => by simp [beqValue]
  | .vSet _, .vList _ => by simp [beqValue]
  | .vSet _, .vDict _ => by simp [beqValue]
  | .vSet _, .vRec _ => by simp [beqValue]
  | .vSet _, .vEnum _ _ => by simp [beqValue]
  | .vRec _, .vBool _ => by simp [beqValue]
  | .vRec _, .vInt _ => by simp [beqValue]
  | .vRec _, .vF32 _ => by simp [beqValue]
  | .vRec _, .vF64 _ => by simp [beqValue]
  | .vRec _, .vBytes _ => by simp [beqValue]
  | .vRec _, .vStr _ => by simp [beqValue]
  | .vRec _, .vNone => by simp [beqValue]
  | .vRec _, .vList _ => by simp [beqValue]
  | .vRec _, .vDict _ => by simp [beqValue]
  | .vRec _, .vSet _ => by simp [beqValue]
  | .vRec _, .vEnum _ _ => by simp [beqValue]
  | .vEnum _ _, .vBool _ => by simp [beqValue]
  | .vEnum _ _, .vInt _ => by simp [beqValue]
  | .vEnum _ _, .vF32 _ => by simp [beqValue]
  | .vEnum _ _, .vF64 _ => by simp [beqValue]
  | .vEnum _ _, .vBytes _ => by simp [beqValue]
  | .vEnum _ _, .vStr _ => by simp [beqValue]
  | .vEnum _ _, .vNone => by simp [beqValue]
  | .vEnum _ _, .vList _ => by simp [beqValue]
  | .vEnum _ _, .vDict _ => by simp [beqValue]
  | .vEnum _ _, .vSet _ => by simp [beqValue]
  | .vEnum _ _, .vRec _ => by simp [beqValue]

theorem beqValueList_iff : ∀ a b : List Value, beqValueList a b = true ↔ a = b
  | [], [] => by simp [beqValueList]
  | _ :: _, [] => by simp [beqValueList]
  | [], _ :: _ => by simp [beqValueList]
  | a :: as, b :: bs => by
      simp [beqValueList, beqValue_iff a b, beqValueList_iff as bs]

theorem beqValuePairs_iff :
    ∀ a b : List (Value × Value), beqValuePairs a b = true ↔ a = b
  | [], [] => by simp [beqValuePairs]
  | _ :: _, [] => by simp [beqValuePairs]
  | [], _ :: _ => by simp [beqValuePairs]
  | (a, x) :: as, (b, y) :: bs => by
      simp [beqValuePairs, beqValue_iff a b, beqValue_iff x y,
        beqValuePairs_iff as bs, and_assoc]

theorem beqValueFields_iff :
    ∀ a b : List (String × Value), beqValueFields a b = true ↔ a = b
  | [], [] => by simp [beqValueFields]
  | _ :: _, [] => by simp [beqValueFields]
  | [], _ :: _ => by simp [beqValueFields]
  | (a, x) :: as, (b, y) :: bs => by
      simp [beqValueFields, beqValue_iff x y, beqValueFields_iff as bs,
        and_assoc]

end

instance : DecidableEq Value := fun a b =>
  decidable_of_iff _ (beqValue_iff a b)

namespace Value

/-- Python `hash`-ability of a value: `bool`, `int`, `float`, `str` and
`bytes` are hashable; `None` is hashable; lists (`ListContainer`),
dicts, sets and the attrs-generated sum-type instances (which have
`eq=True` and hence `__hash__ = None`) are not.  Tuples of hashables
are hashable in Python, but the *decoded* form of a composite layout is
a `ListContainer` (a list), which is not — `hashable` here describes
the decoded key kinds, which is what `dict()`/`set()` see. -/
def hashable : Value → Bool
  | vBool _ | vInt _ | vF32 _ | vF64 _ | vBytes _ | vStr _ | vNone => true
  | _ => false

end Value

/-! ## Python ordering

`HashMap._encode` is `sorted(obj.items())` and `HashSet._encode` is
`sorted(obj)`: both sort by the *host* (Python) ordering of the decoded
values, via `<`.  `pyLt` models Python `<` on the value kinds that can
occur; comparisons that raise `TypeError` in Python (mixed kinds,
dicts, sets, sum-type instances, `None`) are modelled as `false` — the
admissibility predicate requires collections to be strictly sorted, so
such values never appear in admissible collections (exactly as Python
`sorted` would refuse to produce them). -/

/-- Lexicographic strict order on lists of naturals: Python `<` on
`str` (code points) and on `bytes` (byte values). -/
def lexLt : List Nat → List Nat → Bool
  | [], [] => false
  | [], _ :: _ => true
  | _ :: _, [] => false
  | a :: as, b :: bs => if a < b then true else if b < a then false else lexLt as bs

/-- Signed-magnitude integer key of an IEEE-754 bit pattern with `e`
exponent-plus-mantissa bits: non-NaN floats compare exactly as these
keys do (`-0.0` and `+0.0` both map to `0`). -/
def floatKey (magBits : Nat) (bits : Nat) : Int :=
  if bits / 2 ^ magBits % 2 = 1 then -((bits % 2 ^ magBits : Nat) : Int)
  else ((bits % 2 ^ magBits : Nat) : Int)

mutual

/-- Python `<` on values (see module comment above on the `TypeError`
cases).  Python compares tuples lexicographically, testing `==` per
position and deciding at the first unequal one; `x < y` with `x == y`
is `False`, which `pyLt`'s per-position recursion reproduces because
`pyLt` is irreflexive. -/
def pyLt : Value → Value → Bool
  | .vBool a, .vBool b => !a && b
  | .vInt a, .vInt b => a < b
  | .vF32 a, .vF32 b => floatKey 31 a < floatKey 31 b
  | .vF64 a, .vF64 b => floatKey 63 a < floatKey 63 b
  | .vStr a, .vStr b => lexLt a b
  | .vBytes a, .vBytes b => lexLt a b
  | .vList a, .vList b => pyLtList a b
  | _, _ => false

/-- Python lexicographic `<` on tuples/lists. -/
def pyLtList : List Value → List Value → Bool
  | [], [] => false
  | [], _ :: _ => true
  | _ :: _, [] => false
  | a :: as, b :: bs => if a = b then pyLtList as bs else pyLt a b

end

/-- Python `<` on the 2-tuples handed to `sorted` by
`HashMap._encode` (`obj.items()`). -/
def pairLt (p q : Value × Value) : Bool :=
  if p.1 = q.1 then pyLt p.2 q.2 else pyLt p.1 q.1

/-- Insert into a sorted list: place `x` before the first element `y`
with `lt x y`.  `sortBy` below is then a sort with the same result as
Python's stable `sorted` on inputs whose elements are pairwise
strictly comparable (the only inputs our theorems use). -/
def insertSorted (lt : α → α → Bool) (x : α) : List α → List α
  | [] => [x]
  | y :: ys => if lt x y then x :: y :: ys else y :: insertSorted lt x ys

/-- Insertion sort by a strict comparison, modelling Python `sorted`. -/
def sortBy (lt : α → α → Bool) : List α → List α
  | [] => []
  | x :: xs => insertSorted lt x (sortBy lt xs)

/-- Executable strict-sortedness: every element `lt`-precedes every
later element. -/
def pairwiseB (lt : α → α → Bool) : List α → Bool
  | [] => true
  | x :: xs => xs.all (lt x) && pairwiseB lt xs

theorem pairwiseB_iff (lt : α → α → Bool) (l : List α) :
    pairwiseB lt l = true ↔ l.Pairwise (fun a b => lt a b = true) := by
  induction l with
  | nil => simp [pairwiseB]
  | cons x xs ih =>
    simp [pairwiseB, List.pairwise_cons, ih, List.all_eq_true, and_comm]

theorem insertSorted_perm (lt : α → α → Bool) (x : α) (l : List α) :
    List.Perm (insertSorted lt x l) (x :: l) := by
  induction l with
  | nil => simp [insertSorted]
  | cons y ys ih =>
    simp only [insertSorted]
    split
    · exact List.Perm.refl _
    · exact (ih.cons y).trans (List.Perm.swap x y ys)

theorem sortBy_perm (lt : α → α → Bool) (l : List α) :
    List.Perm (sortBy lt l) l := by
  induction l with
  | nil => exact List.Perm.refl _
  | cons x xs ih => exact (insertSorted_perm lt x _).trans (ih.cons x)

theorem insertSorted_pairwise (lt : α → α → Bool)
    (hasym : ∀ a b, lt a b = true → lt b a = false)
    (htrans : ∀ a b c, lt a b = true → lt b c = true → lt a c = true)
    (x : α) (l : List α) (h : l.Pairwise (fun a b => lt b a = false)) :
    (insertSorted lt x l).Pairwise (fun a b => lt b a = false) := by
  induction l with
  | nil => simp [insertSorted]
  | cons y ys ih =>
    rw [List.pairwise_cons] at h
    obtain ⟨hy, hys⟩ := h
    simp only [insertSorted]
    split
    · rename_i hxy
      refine List.Pairwise.cons ?_ (List.Pairwise.cons hy hys)
      intro z hz
      rcases List.mem_cons.mp hz with rfl | hz
      · exact hasym _ _ hxy
      · by_contra hc
        have hzx : lt z x = true := by
          revert hc
          cases lt z x <;> simp
        have : lt z y = true := htrans _ _ _ hzx hxy
        rw [hy z hz] at this
        exact Bool.false_ne_true this
    · rename_i hxy
      refine List.Pairwise.cons ?_ (ih hys)
      intro z hz
      have : z ∈ x :: ys := (insertSorted_perm lt x ys).mem_iff.mp hz
      rcases List.mem_cons.mp this with rfl | hz'
      · revert hxy
        cases lt z y <;> simp
      · exact hy z hz'

theorem sortBy_pairwise (lt : α → α → Bool)
    (hasym : ∀ a b, lt a b = true → lt b a = false)
    (htrans : ∀ a b c, lt a b = true → lt b c = true → lt a c = true)
    (l : List α) :
    (sortBy lt l).Pairwise (fun a b => lt b a = false) := by
  induction l with
  | nil => simp [sortBy]
  | cons x xs ih => exact insertSorted_pairwise lt hasym htrans x _ ih

/-- Two permuted lists, one weakly sorted and the other strictly
sorted, are equal: the sorted order of a pairwise strictly comparable
collection is unique. -/
theorem eq_of_perm_of_sorted (lt : α → α → Bool) :
    ∀ (p q : List α), List.Perm p q →
      p.Pairwise (fun a b => lt b a = false) →
      q.Pairwise (fun a b => lt a b = true) → p = q
  | [], [], _, _, _ => rfl
  | [], b :: t2, hp, _, _ => absurd hp.symm.eq_nil (List.cons_ne_nil b t2)
  | a :: t1, [], hp, _, _ => absurd hp.eq_nil (List.cons_ne_nil a t1)
  | a :: t1, b :: t2, hp, h1, h2 => by
    rw [List.pairwise_cons] at h1 h2
    have hab : a = b := by
      have ha : a ∈ b :: t2 := hp.mem_iff.mp (List.mem_cons_self a t1)
      rcases List.mem_cons.mp ha with rfl | ha2
      · rfl
      · have hba : lt b a = true := h2.1 a ha2
        have hb : b ∈ a :: t1 := hp.mem_iff.mpr (List.mem_cons_self b t2)
        rcases List.mem_cons.mp hb with rfl | hb1
        · rfl
        · rw [h1.1 b hb1] at hba
          exact absurd hba (Bool.false_ne_true)
    subst hab
    have := eq_of_perm_of_sorted lt t1 t2 (hp.cons_inv) h1.2 h2.2
    rw [this]

/-- Characterisation of Python `sorted` used throughout: sorting any
permutation of a pairwise strictly ascending list returns that list. -/
theorem sortBy_eq_of_perm (lt : α → α → Bool)
    (hasym : ∀ a b, lt a b = true → lt b a = false)
    (htrans : ∀ a b c, lt a b = true → lt b c = true → lt a c = true)
    (p q : List α) (hp : List.Perm p q)
    (hq : q.Pairwise (fun a b => lt a b = true)) :
    sortBy lt p = q :=
  eq_of_perm_of_sorted lt _ _ ((sortBy_perm lt p).trans hp)
    (sortBy_pairwise lt hasym htrans p) hq

/-! ### Properties of the Python order -/

theorem lexLt_irrefl : ∀ a : List Nat, lexLt a a = false
  | [] => rfl
  | x :: xs => by simp [lexLt, lexLt_irrefl xs]

theorem lexLt_nil_right : ∀ a : List Nat, lexLt a [] = false
  | [] => rfl
  | _ :: _ => rfl

theorem lexLt_asymm : ∀ a b : List Nat,
    lexLt a b = true → lexLt b a = false
  | [], [] => by simp [lexLt]
  | [], _ :: _ => by intro _; rfl
  | _ :: _, [] => by simp [lexLt]
  | a :: as, b :: bs => by
    simp only [lexLt]
    rcases Nat.lt_trichotomy a b with h | h | h
    · intro _
      rw [if_neg (by omega), if_pos h]
    · subst h
      rw [if_neg (by omega), if_neg (by omega), if_neg (by omega),
        if_neg (by omega)]
      exact lexLt_asymm as bs
    · rw [if_neg (by omega), if_pos h]
      intro hcon
      exact Bool.noConfusion hcon

theorem lexLt_trans : ∀ a b c : List Nat,
    lexLt a b = true → lexLt b c = true → lexLt a c = true
  | _, b, [], _, h2 => by rw [lexLt_nil_right] at h2; exact Bool.noConfusion h2
  | a, [], _ :: _, h1, _ => by
      rw [lexLt_nil_right] at h1; exact Bool.noConfusion h1
  | [], _ :: _, _ :: _, _, _ => rfl
  | a :: as, b :: bs, c :: cs, h1, h2 => by
    simp only [lexLt] at h1 h2 ⊢
    by_cases hab : a < b
    · by_cases hbc : b < c
      · rw [if_pos (by omega)]
      · rw [if_neg hbc] at h2
        by_cases hcb : c < b
        · rw [if_pos hcb] at h2; exact Bool.noConfusion h2
        · rw [if_pos (by omega : a < c)]
    · rw [if_neg hab] at h1
      by_cases hba : b < a
      · rw [if_pos hba] at h1; exact Bool.noConfusion h1
      · rw [if_neg hba] at h1
        have hE : a = b := by omega
        subst hE
        by_cases hac : a < c
        · rw [if_pos hac]
        · rw [if_neg hac] at h2 ⊢
          by_cases hca : c < a
          · rw [if_pos hca] at h2; exact Bool.noConfusion h2
          · rw [if_neg hca] at h2 ⊢
            exact lexLt_trans as bs cs h1 h2

theorem pyLtList_irrefl : ∀ l : List Value, pyLtList l l = false
  | [] => rfl
  | x :: xs => by simp [pyLtList, pyLtList_irrefl xs]

theorem pyLt_irrefl : ∀ a : Value, pyLt a a = false
  | .vBool b => by cases b <;> rfl
  | .vInt n => by simp [pyLt]
  | .vF32 b => by simp [pyLt]
  | .vF64 b => by simp [pyLt]
  | .vBytes bs => by simp [pyLt, lexLt_irrefl]
  | .vStr cs => by simp [pyLt, lexLt_irrefl]
  | .vNone => rfl
  | .vList xs => pyLtList_irrefl xs
  | .vDict _ => rfl
  | .vSet _ => rfl
  | .vRec _ => rfl
  | .vEnum _ _ => rfl

mutual

theorem pyLt_asymm : ∀ a b : Value, pyLt a b = true → pyLt b a = false
  | .vBool x, b => by
    cases b <;>
      first
        | exact fun h => Bool.noConfusion h
        | (rename_i y; cases x <;> cases y <;> decide)
  | .vInt x, b => by
    cases b <;>
      first
        | exact fun h => Bool.noConfusion h
        | (simp only [pyLt, decide_eq_true_eq, decide_eq_false_iff_not]
           omega)
  | .vF32 x, b => by
    cases b <;>
      first
        | exact fun h => Bool.noConfusion h
        | (simp only [pyLt, decide_eq_true_eq, decide_eq_false_iff_not]
           omega)
  | .vF64 x, b => by
    cases b <;>
      first
        | exact fun h => Bool.noConfusion h
        | (simp only [pyLt, decide_eq_true_eq, decide_eq_false_iff_not]
           omega)
  | .vBytes x, b => by
    cases b <;>
      first
        | exact fun h => Bool.noConfusion h
        | exact fun h => lexLt_asymm _ _ h
  | .vStr x, b => by
    cases b <;>
      first
        | exact fun h => Bool.noConfusion h
        | exact fun h => lexLt_asymm _ _ h
  | .vNone, b => by cases b <;> exact fun h => Bool.noConfusion h
  | .vList xs, b => by
    cases b <;>
      first
        | exact fun h => Bool.noConfusion h
        | exact fun h => pyLtList_asymm xs _ h
  | .vDict _, b => by cases b <;> exact fun h => Bool.noConfusion h
  | .vSet _, b => by cases b <;> exact fun h => Bool.noConfusion h
  | .vRec _, b => by cases b <;> exact fun h => Bool.noConfusion h
  | .vEnum _ _, b => by cases b <;> exact fun h => Bool.noConfusion h

theorem pyLtList_asymm : ∀ a b : List Value,
    pyLtList a b = true → pyLtList b a = false
  | [], [] => fun h => Bool.noConfusion h
  | [], _ :: _ => fun _ => rfl
  | _ :: _, [] => fun h => Bool.noConfusion h
  | a :: as, b :: bs => by
    simp only [pyLtList]
    by_cases hab : a = b
    · subst hab
      rw [if_pos rfl, if_pos rfl]
      exact pyLtList_asymm as bs
    · rw [if_neg hab, if_neg (Ne.symm hab)]
      exact pyLt_asymm a b

end

theorem pyLtList_nil_right : ∀ a : List Value, pyLtList a [] = false
  | [] => rfl
  | _ :: _ => rfl

mutual

theorem pyLt_trans : ∀ a b c : Value,
    pyLt a b = true → pyLt b c = true → pyLt a c = true
  | .vBool x, b, c => by
    cases b <;> cases c <;>
      first
        | exact fun h _ => Bool.noConfusion h
        | exact fun _ h => Bool.noConfusion h
        | (rename_i y z; cases x <;> cases y <;> cases z <;> decide)
  | .vInt x, b, c => by
    cases b <;> cases c <;>
      first
        | exact fun h _ => Bool.noConfusion h
        | exact fun _ h => Bool.noConfusion h
        | (simp only [pyLt, decide_eq_true_eq]; omega)
  | .vF32 x, b, c => by
    cases b <;> cases c <;>
      first
        | exact fun h _ => Bool.noConfusion h
        | exact fun _ h => Bool.noConfusion h
        | (simp only [pyLt, decide_eq_true_eq]; omega)
  | .vF64 x, b, c => by
    cases b <;> cases c <;>
      first
        | exact fun h _ => Bool.noConfusion h
        | exact fun _ h => Bool.noConfusion h
        | (simp only [pyLt, decide_eq_true_eq]; omega)
  | .vBytes x, b, c => by
    cases b <;> cases c <;>
      first
        | exact fun h _ => Bool.noConfusion h
        | exact fun _ h => Bool.noConfusion h
        | exact fun h1 h2 => lexLt_trans _ _ _ h1 h2
  | .vStr x, b, c => by
    cases b <;> cases c <;>
      first
        | exact fun h _ => Bool.noConfusion h
        | exact fun _ h => Bool.noConfusion h
        | exact fun h1 h2 => lexLt_trans _ _ _ h1 h2
  | .vNone, b, c => by
    cases b <;> exact fun h _ => Bool.noConfusion h
  | .vList xs, b, c => by
    cases b <;> cases c <;>
      first
        | exact fun h _ => Bool.noConfusion h
        | exact fun _ h => Bool.noConfusion h
        | exact fun h1 h2 => pyLtList_trans xs _ _ h1 h2
  | .vDict _, b, c => by
    cases b <;> exact fun h _ => Bool.noConfusion h
  | .vSet _, b, c => by
    cases b <;> exact fun h _ => Bool.noConfusion h
  | .vRec _, b, c => by
    cases b <;> exact fun h _ => Bool.noConfusion h
  | .vEnum _ _, b, c => by
    cases b <;> exact fun h _ => Bool.noConfusion h

theorem pyLtList_trans : ∀ a b c : List Value,
    pyLtList a b = true → pyLtList b c = true → pyLtList a c = true
  | _, b, [] => by
    rw [pyLtList_nil_right]
    exact fun _ h => Bool.noConfusion h
  | a, [], _ :: _ => by
    rw [pyLtList_nil_right]
    exact fun h _ => Bool.noConfusion h
  | [], _ :: _, _ :: _ => fun _ _ => rfl
  | a :: as, b :: bs, c :: cs => by
    simp only [pyLtList]
    by_cases hab : a = b <;> by_cases hbc : b = c
    · subst hab; subst hbc
      rw [if_pos rfl, if_pos rfl, if_pos rfl]
      exact pyLtList_trans as bs cs
    · subst hab
      rw [if_pos rfl, if_neg hbc, if_neg hbc]
      exact fun _ h => h
    · subst hbc
      rw [if_neg hab, if_pos rfl, if_neg hab]
      exact fun h _ => h
    · rw [if_neg hab, if_neg hbc]
      intro h1 h2
      have hac : a ≠ c := by
        intro hE
        subst hE
        rw [pyLt_asymm b a h2] at h1
        exact Bool.noConfusion h1
      rw [if_neg hac]
      exact pyLt_trans a b c h1 h2

end

/-- `pairLt` is asymmetric. -/
theorem pairLt_asymm (p q : Value × Value) (h : pairLt p q = true) :
    pairLt q p = false := by
  obtain ⟨a, x⟩ := p
  obtain ⟨b, y⟩ := q
  simp only [pairLt] at h ⊢
  by_cases hab : a = b
  · subst hab
    rw [if_pos rfl] at h ⊢
    exact pyLt_asymm _ _ h
  · rw [if_neg hab] at h
    rw [if_neg (Ne.symm hab)]
    exact pyLt_asymm _ _ h

/-! ## UTF-8

`String = StringAdapter(Bytes)`: `_encode` is Python
`str.encode("utf8")` and `_decode` is Python `bytes.decode("utf8")`.
`utf8EncodeChar`/`utf8Decode` model those codecs over Unicode code
points: the encoder covers exactly the scalar values (surrogates make
Python's encoder raise, mirrored by the admissibility predicate), and
the decoder performs Python's strict validation (leading-byte ranges,
continuation bytes, and rejection of overlong forms and surrogates,
here expressed as range checks on the decoded code point). -/

/-- `validScalar c`: `c` is a Unicode scalar value, i.e. a code point
Python's UTF-8 encoder accepts. -/
def validScalar (c : Nat) : Bool :=
  decide (c < 0x110000) && !(decide (0xD800 ≤ c) && decide (c < 0xE000))

/-- UTF-8 encoding of one scalar value (1–4 bytes). -/
def utf8EncodeChar (c : Nat) : List Nat :=
  if c < 0x80 then [c]
  else if c < 0x800 then [0xC0 + c / 64, 0x80 + c % 64]
  else if c < 0x10000 then
    [0xE0 + c / 4096, 0x80 + c / 64 % 64, 0x80 + c % 64]
  else
    [0xF0 + c / 262144, 0x80 + c / 4096 % 64, 0x80 + c / 64 % 64,
      0x80 + c % 64]

/-- UTF-8 encoding of a string (list of code points). -/
def utf8Encode (cs : List Nat) : List Nat := (cs.map utf8EncodeChar).flatten

/-- Prepend a decoded code point to the result of decoding the rest of
the stream, propagating failure. -/
def consCp (c : Nat) : Except Err (List Nat) → Except Err (List Nat)
  | .ok cs => .ok (c :: cs)
  | .error e => .error e

/-- Decode one UTF-8 sequence given its first byte `b0` and the bytes
after it, returning the code point and the unconsumed bytes.  Performs
Python's strict validation: leading-byte ranges, continuation bytes,
and rejection of overlong forms and surrogates (the latter two
expressed as range checks on the decoded code point). -/
def utf8DecodeOne (b0 : Nat) (rest : List Nat) : Except Err (Nat × List Nat) :=
  if b0 < 0x80 then .ok (b0, rest)
  else if 0xC2 ≤ b0 ∧ b0 ≤ 0xDF then
    match rest with
    | b1 :: rest' =>
      if 0x80 ≤ b1 ∧ b1 < 0xC0 then
        .ok ((b0 - 0xC0) * 64 + (b1 - 0x80), rest')
      else .error .utf8
    | [] => .error .utf8
  else if 0xE0 ≤ b0 ∧ b0 ≤ 0xEF then
    match rest with
    | b1 :: b2 :: rest' =>
      if (0x80 ≤ b1 ∧ b1 < 0xC0) ∧ (0x80 ≤ b2 ∧ b2 < 0xC0) ∧
          0x800 ≤ (b0 - 0xE0) * 4096 + (b1 - 0x80) * 64 + (b2 - 0x80) ∧
          ¬(0xD800 ≤ (b0 - 0xE0) * 4096 + (b1 - 0x80) * 64 + (b2 - 0x80) ∧
            (b0 - 0xE0) * 4096 + (b1 - 0x80) * 64 + (b2 - 0x80) < 0xE000)
      then .ok ((b0 - 0xE0) * 4096 + (b1 - 0x80) * 64 + (b2 - 0x80), rest')
      else .error .utf8
    | _ => .error .utf8
  else if 0xF0 ≤ b0 ∧ b0 ≤ 0xF4 then
    match rest with
    | b1 :: b2 :: b3 :: rest' =>
      if (0x80 ≤ b1 ∧ b1 < 0xC0) ∧ (0x80 ≤ b2 ∧ b2 < 0xC0) ∧
          (0x80 ≤ b3 ∧ b3 < 0xC0) ∧
          0x10000 ≤ (b0 - 0xF0) * 262144 + (b1 - 0x80) * 4096 +
            (b2 - 0x80) * 64 + (b3 - 0x80) ∧
          (b0 - 0xF0) * 262144 + (b1 - 0x80) * 4096 + (b2 - 0x80) * 64 +
            (b3 - 0x80) < 0x110000
      then .ok ((b0 - 0xF0) * 262144 + (b1 - 0x80) * 4096 +
        (b2 - 0x80) * 64 + (b3 - 0x80), rest')
      else .error .utf8
    | _ => .error .utf8
  else .error .utf8

theorem utf8DecodeOne_length {b0 : Nat} {rest : List Nat} {c : Nat}
    {rest' : List Nat} (h : utf8DecodeOne b0 rest = .ok (c, rest')) :
    rest'.length ≤ rest.length := by
  unfold utf8DecodeOne at h
  repeat' split at h
  all_goals simp_all
  all_goals omega

/-- Strict UTF-8 decoding of a byte list into code points, failing
exactly where Python's strict `"utf8"` codec raises
`UnicodeDecodeError`. -/
def utf8Decode (s : List Nat) : Except Err (List Nat) :=
  match s with
  | [] => .ok []
  | b0 :: rest =>
    match h : utf8DecodeOne b0 rest with
    | .ok (c, rest') => consCp c (utf8Decode rest')
    | .error e => .error e
  termination_by s.length
  decreasing_by
    have := utf8DecodeOne_length h
    simp only [List.length_cons]
    omega

theorem utf8Decode_nil : utf8Decode [] = .ok [] := by rw [utf8Decode]

theorem utf8Decode_cons_ok {b0 c : Nat} {bs rest' : List Nat}
    (h : utf8DecodeOne b0 bs = .ok (c, rest')) :
    utf8Decode (b0 :: bs) = consCp c (utf8Decode rest') := by
  rw [utf8Decode]
  split
  · rename_i c2 rest2 heq
    rw [h] at heq
    cases heq
    rfl
  · rename_i e heq
    rw [h] at heq
    cases heq

theorem utf8Decode_encodeChar (c : Nat) (h : validScalar c = true)
    (bs : List Nat) :
    utf8Decode (utf8EncodeChar c ++ bs) = consCp c (utf8Decode bs) := by
  have hv : c < 0x110000 ∧ ¬(0xD800 ≤ c ∧ c < 0xE000) := by
    simp only [validScalar, Bool.and_eq_true, Bool.not_eq_true',
      Bool.and_eq_false_iff, decide_eq_true_eq, decide_eq_false_iff_not]
      at h
    omega
  rw [utf8EncodeChar]
  by_cases h1 : c < 0x80
  · rw [if_pos h1]
    simp only [List.cons_append, List.nil_append]
    exact utf8Decode_cons_ok (by unfold utf8DecodeOne; rw [if_pos h1])
  · rw [if_neg h1]
    by_cases h2 : c < 0x800
    · rw [if_pos h2]
      simp only [List.cons_append, List.nil_append]
      have hc : (0xC0 + c / 64 - 0xC0) * 64 + (0x80 + c % 64 - 0x80) = c := by
        omega
      have hone : utf8DecodeOne (0xC0 + c / 64) ((0x80 + c % 64) :: bs) =
          .ok (c, bs) := by
        unfold utf8DecodeOne
        rw [if_neg (by omega : ¬ 0xC0 + c / 64 < 0x80),
          if_pos (by omega : 0xC2 ≤ 0xC0 + c / 64 ∧ 0xC0 + c / 64 ≤ 0xDF)]
        dsimp only
        rw [if_pos (by omega : 0x80 ≤ 0x80 + c % 64 ∧ 0x80 + c % 64 < 0xC0),
          hc]
      rw [utf8Decode_cons_ok hone]
    · rw [if_neg h2]
      by_cases h3 : c < 0x10000
      · rw [if_pos h3]
        simp only [List.cons_append, List.nil_append]
        have hc : (0xE0 + c / 4096 - 0xE0) * 4096 +
            (0x80 + c / 64 % 64 - 0x80) * 64 + (0x80 + c % 64 - 0x80) = c := by
          omega
        have hone : utf8DecodeOne (0xE0 + c / 4096)
            ((0x80 + c / 64 % 64) :: (0x80 + c % 64) :: bs) = .ok (c, bs) := by
          unfold utf8DecodeOne
          rw [if_neg (by omega : ¬ 0xE0 + c / 4096 < 0x80),
            if_neg (by omega :
              ¬ (0xC2 ≤ 0xE0 + c / 4096 ∧ 0xE0 + c / 4096 ≤ 0xDF)),
            if_pos (by omega :
              0xE0 ≤ 0xE0 + c / 4096 ∧ 0xE0 + c / 4096 ≤ 0xEF)]
          dsimp only
          rw [if_pos ⟨by omega, by omega, by rw [hc]; omega,
            by rw [hc]; omega⟩, hc]
        rw [utf8Decode_cons_ok hone]
      · rw [if_neg h3]
        simp only [List.cons_append, List.nil_append]
        have hc : (0xF0 + c / 262144 - 0xF0) * 262144 +
            (0x80 + c / 4096 % 64 - 0x80) * 4096 +
            (0x80 + c / 64 % 64 - 0x80) * 64 + (0x80 + c % 64 - 0x80) = c := by
          omega
        have hone : utf8DecodeOne (0xF0 + c / 262144)
            ((0x80 + c / 4096 % 64) :: (0x80 + c / 64 % 64) ::
              (0x80 + c % 64) :: bs) = .ok (c, bs) := by
          unfold utf8DecodeOne
          rw [if_neg (by omega : ¬ 0xF0 + c / 262144 < 0x80),
            if_neg (by omega :
              ¬ (0xC2 ≤ 0xF0 + c / 262144 ∧ 0xF0 + c / 262144 ≤ 0xDF)),
            if_neg (by omega :
              ¬ (0xE0 ≤ 0xF0 + c / 262144 ∧ 0xF0 + c / 262144 ≤ 0xEF)),
            if_pos (by omega :
              0xF0 ≤ 0xF0 + c / 262144 ∧ 0xF0 + c / 262144 ≤ 0xF4)]
          dsimp only
          rw [if_pos ⟨by omega, by omega, by omega, by rw [hc]; omega,
            by rw [hc]; omega⟩, hc]
        rw [utf8Decode_cons_ok hone]

theorem utf8Decode_encode (cs : List Nat)
    (h : ∀ c ∈ cs, validScalar c = true) (bs : List Nat) :
    utf8Decode (utf8Encode cs ++ bs) =
      match utf8Decode bs with
      | .ok ds => .ok (cs ++ ds)
      | .error e => .error e := by
  induction cs with
  | nil =>
    simp only [utf8Encode, List.map_nil, List.flatten, List.nil_append]
    cases utf8Decode bs <;> rfl
  | cons c cs ih =>
    have hc := h c (List.mem_cons_self c cs)
    have hrest : ∀ x ∈ cs, validScalar x = true :=
      fun x hx => h x (List.mem_cons_of_mem c hx)
    have hsplit : utf8Encode (c :: cs) ++ bs =
        utf8EncodeChar c ++ (utf8Encode cs ++ bs) := by
      simp [utf8Encode]
    rw [hsplit, utf8Decode_encodeChar c hc, ih hrest]
    cases utf8Decode bs <;> rfl

/-! ## Schemas

`Sch` is the static type tree a schema loader hands to the codec: the
construct objects of `borsh.py` (`Bool`, `U8`…`I128`, `F32`/`F64`,
`Bytes`, `String`, `Vec`, `subcon[n]` fixed arrays, `Option`,
`HashMap`, `HashSet`, `TupleStruct` (= construct `Sequence`), `CStruct`
(= construct `Struct`) and `Enum`).  Lists of sub-schemas are spelled
as the mutual inductives `SchList`/`Fields`/`Variants` so structural
recursion and induction stay available.  An `Enum`'s variants are the
post-construction shapes: a plain string (unit variant), a renamed
`TupleStruct` (tuple variant) or a renamed `CStruct` (struct
variant). -/

mutual

inductive Sch where
  | bool
  | u8
  | i8
  | u16
  | i16
  | u32
  | i32
  | u64
  | i64
  | u128
  | i128
  | f32
  | f64
  | bytes
  | str
  | vec (s : Sch)
  | arr (s : Sch) (n : Nat)
  | option (s : Sch)
  | hashMap (k v : Sch)
  | hashSet (s : Sch)
  | tupleStruct (ss : SchList)
  | cStruct (fs : Fields)
  | enum (vs : Variants)

inductive SchList where
  | nil
  | cons (s : Sch) (rest : SchList)

inductive Fields where
  | nil
  | cons (name : String) (s : Sch) (rest : Fields)

inductive Variants where
  | nil
  | unitV (name : String) (rest : Variants)
  | tupleV (name : String) (ss : SchList) (rest : Variants)
  | structV (name : String) (fs : Fields) (rest : Variants)

end

/-- The shape of one enum variant, as returned by indexing the variant
list with the wire discriminant. -/
inductive VShape where
  | unitS (name : String)
  | tupleS (name : String) (ss : SchList)
  | structS (name : String) (fs : Fields)

/-- Number of declared variants. -/
def Variants.length : Variants → Nat
  | .nil => 0
  | .unitV _ rest => rest.length + 1
  | .tupleV _ _ rest => rest.length + 1
  | .structV _ _ rest => rest.length + 1

/-- `self.variants[index]` / `self.enum.getitem(index)`: the variant at
a 0-based declaration-order index, `none` when the index is out of
range (Python `IndexError`). -/
def Variants.get? : Variants → Nat → Option VShape
  | .nil, _ => none
  | .unitV n _, 0 => some (.unitS n)
  | .tupleV n ss _, 0 => some (.tupleS n ss)
  | .structV n fs _, 0 => some (.structS n fs)
  | .unitV _ rest, i + 1 => rest.get? i
  | .tupleV _ _ rest, i + 1 => rest.get? i
  | .structV _ _ rest, i + 1 => rest.get? i

theorem Variants.get?_eq_none : ∀ (vs : Variants) (i : Nat),
    vs.length ≤ i → vs.get? i = none
  | .nil, _, _ => rfl
  | .unitV _ rest, 0, h => by simp [Variants.length] at h
  | .tupleV _ _ rest, 0, h => by simp [Variants.length] at h
  | .structV _ _ rest, 0, h => by simp [Variants.length] at h
  | .unitV _ rest, i + 1, h =>
    Variants.get?_eq_none rest i (by simp [Variants.length] at h; omega)
  | .tupleV _ _ rest, i + 1, h =>
    Variants.get?_eq_none rest i (by simp [Variants.length] at h; omega)
  | .structV _ _ rest, i + 1, h =>
    Variants.get?_eq_none rest i (by simp [Variants.length] at h; omega)

theorem Variants.sizeOf_get?_tuple : ∀ (vs : Variants) (i : Nat)
    (name : String) (ss : SchList),
    vs.get? i = some (.tupleS name ss) → sizeOf ss < sizeOf vs
  | .nil, i, _, _, h => by simp [Variants.get?] at h
  | .unitV _ rest, 0, _, _, h => by simp [Variants.get?] at h
  | .tupleV _ ss0 rest, 0, _, _, h => by
    simp only [Variants.get?, Option.some.injEq, VShape.tupleS.injEq] at h
    obtain ⟨-, rfl⟩ := h
    simp
    omega
  | .structV _ _ rest, 0, _, _, h => by simp [Variants.get?] at h
  | .unitV _ rest, i + 1, name, ss, h => by
    have := Variants.sizeOf_get?_tuple rest i name ss h
    simp
    omega
  | .tupleV _ _ rest, i + 1, name, ss, h => by
    have := Variants.sizeOf_get?_tuple rest i name ss h
    simp
    omega
  | .structV _ _ rest, i + 1, name, ss, h => by
    have := Variants.sizeOf_get?_tuple rest i name ss h
    simp
    omega

theorem Variants.sizeOf_get?_struct : ∀ (vs : Variants) (i : Nat)
    (name : String) (fs : Fields),
    vs.get? i = some (.structS name fs) → sizeOf fs < sizeOf vs
  | .nil, i, _, _, h => by simp [Variants.get?] at h
  | .unitV _ rest, 0, _, _, h => by simp [Variants.get?] at h
  | .tupleV _ _ rest, 0, _, _, h => by simp [Variants.get?] at h
  | .structV _ fs0 rest, 0, _, _, h => by
    simp only [Variants.get?, Option.some.injEq, VShape.structS.injEq] at h
    obtain ⟨-, rfl⟩ := h
    simp
    omega
  | .unitV _ rest, i + 1, name, fs, h => by
    have := Variants.sizeOf_get?_struct rest i name fs h
    simp
    omega
  | .tupleV _ _ rest, i + 1, name, fs, h => by
    have := Variants.sizeOf_get?_struct rest i name fs h
    simp
    omega
  | .structV _ _ rest, i + 1, name, fs, h => by
    have := Variants.sizeOf_get?_struct rest i name fs h
    simp
    omega

theorem Sch.one_le_sizeOf (s : Sch) : 1 ≤ sizeOf s := by
  cases s <;> simp <;> omega

mutual

/-- `subcon.sizeof()` from construct: the static byte size, `none`
where construct raises `SizeofError` (`Prefixed`/`PrefixedArray`
codecs, `Option`, `Enum`, and the adapters built over them). -/
def Sch.sizeof? : Sch → Option Nat
  | .bool => some 1
  | .u8 => some 1
  | .i8 => some 1
  | .u16 => some 2
  | .i16 => some 2
  | .u32 => some 4
  | .i32 => some 4
  | .u64 => some 8
  | .i64 => some 8
  | .u128 => some 16
  | .i128 => some 16
  | .f32 => some 4
  | .f64 => some 8
  | .bytes => none
  | .str => none
  | .vec _ => none
  | .arr s n =>
    match s.sizeof? with
    | some m => some (n * m)
    | none => none
  | .option _ => none
  | .hashMap _ _ => none
  | .hashSet _ => none
  | .tupleStruct ss => SchList.sizeofSum? ss
  | .cStruct fs => Fields.sizeofSum? fs
  | .enum _ => none

/-- Sum of static sizes of a `Sequence`'s subcons (`none` as soon as
one raises). -/
def SchList.sizeofSum? : SchList → Option Nat
  | .nil => some 0
  | .cons s rest =>
    match s.sizeof?, SchList.sizeofSum? rest with
    | some a, some b => some (a + b)
    | _, _ => none

/-- Sum of static sizes of a `Struct`'s fields. -/
def Fields.sizeofSum? : Fields → Option Nat
  | .nil => some 0
  | .cons _ s rest =>
    match s.sizeof?, Fields.sizeofSum? rest with
    | some a, some b => some (a + b)
    | _, _ => none

end

/-! ## Scalar helpers -/

/-- `struct.pack`-style little-endian integer build with range check
(also the behaviour of `BytesInteger(16, signed=…, swapped=True)` for
`w = 16`): out-of-range values raise. -/
def intBuild (w : Nat) (signed : Bool) (n : Int) : Except Err (List Nat) :=
  let lo : Int := if signed then -(2 ^ (8 * w - 1)) else 0
  let hi : Int := if signed then 2 ^ (8 * w - 1) else 2 ^ (8 * w)
  if lo ≤ n ∧ n < hi then .ok (toLE w (n % 2 ^ (8 * w)).toNat)
  else .error .range

/-- `struct.unpack`-style little-endian integer parse (two's
complement when signed). -/
def intParse (w : Nat) (signed : Bool) (bs : List Nat) : Int :=
  let u := fromLE bs
  if signed ∧ 2 ^ (8 * w - 1) ≤ u then (u : Int) - 2 ^ (8 * w) else (u : Int)

/-- IEEE-754 single-precision NaN test on a bit pattern: exponent all
ones with a nonzero mantissa. -/
def isNan32 (bits : Nat) : Bool := decide (0x7F800000 < bits % 0x80000000)

/-- IEEE-754 double-precision NaN test on a bit pattern. -/
def isNan64 (bits : Nat) : Bool :=
  decide (0x7FF0000000000000 < bits % 0x8000000000000000)

/-- Read a single byte (`stream_read(stream, 1, path)`). -/
def read1 : List Nat → Except Err (Nat × List Nat)
  | [] => .error .underflow
  | b :: rest => .ok (b, rest)

/-- Concatenate two fallible byte strings, failing left-to-right (the
order the Python code writes to the stream). -/
def exCat (a b : Except Err (List Nat)) : Except Err (List Nat) :=
  match a, b with
  | .ok x, .ok y => .ok (x ++ y)
  | .error e, _ => .error e
  | .ok _, .error e => .error e

/-- Concatenate a list of fallible byte strings. -/
def exJoin : List (Except Err (List Nat)) → Except Err (List Nat)
  | [] => .ok []
  | x :: rest => exCat x (exJoin rest)

/-- Sequential composition of parsers: run the continuation on the
parsed value and the unconsumed stream. -/
def bindDec {α β : Type} (x : Except Err (α × List Nat))
    (f : α → List Nat → Except Err β) : Except Err β :=
  match x with
  | .ok (a, rest) => f a rest
  | .error e => .error e

/-- Map over the parsed value, keeping the unconsumed stream. -/
def mapFst {α β : Type} (f : α → β) (x : Except Err (α × List Nat)) :
    Except Err (β × List Nat) :=
  match x with
  | .ok (a, rest) => .ok (f a, rest)
  | .error e => .error e

/-- One step of Python `dict(...)` construction: a repeated key keeps
its first position but takes the new value. -/
def dictInsert : List (Value × Value) → Value × Value → List (Value × Value)
  | [], kv => [kv]
  | (k0, v0) :: rest, (k, v) =>
    if k0 = k then (k0, v) :: rest else (k0, v0) :: dictInsert rest (k, v)

/-- Python `dict(list_of_pairs)`. -/
def dictOfList (l : List (Value × Value)) : List (Value × Value) :=
  l.foldl dictInsert []

/-- One step of Python `set(...)` construction: duplicates are
dropped. -/
def setInsert : List Value → Value → List Value
  | [], x => [x]
  | y :: rest, x => if y = x then y :: rest else y :: setInsert rest x

/-- Python `set(list)`, represented by its first-occurrence order. -/
def setOfList (l : List Value) : List Value :=
  l.foldl setInsert []

/-- `pairLt` is transitive. -/
theorem pairLt_trans (p q r : Value × Value) (h1 : pairLt p q = true)
    (h2 : pairLt q r = true) : pairLt p r = true := by
  obtain ⟨a, x⟩ := p
  obtain ⟨b, y⟩ := q
  obtain ⟨c, z⟩ := r
  simp only [pairLt] at h1 h2 ⊢
  by_cases hab : a = b <;> by_cases hbc : b = c
  · subst hab; subst hbc
    rw [if_pos rfl] at h1 h2 ⊢
    exact pyLt_trans _ _ _ h1 h2
  · subst hab
    rw [if_pos rfl] at h1
    rw [if_neg hbc] at h2
    rw [if_neg hbc]
    exact h2
  · subst hbc
    rw [if_neg hab] at h1
    rw [if_neg hab]
    exact h1
  · rw [if_neg hab] at h1
    rw [if_neg hbc] at h2
    have hac : a ≠ c := by
      intro hE
      subst hE
      rw [pyLt_asymm _ _ h2] at h1
      exact Bool.noConfusion h1
    rw [if_neg hac]
    exact pyLt_trans _ _ _ h1 h2

/-! ## Admissibility

`admits s v`: the schema `s` admits the Python value `v` — `v` has the
shape the schema describes and `encode` is defined on it (integer
ranges, non-NaN floats, encodable strings, `u32`-expressible lengths,
and canonical strictly-sorted dict/set representations with hashable
keys — see the `Value` module comment; Python's `dict`/`set` values
are order-insensitive, so the strictly sorted entry list is the one
representative of each such value, and `sorted` in the encoder demands
mutually comparable keys exactly as strict sortedness does). -/

mutual

def admits : Sch → Value → Bool
  | .bool, .vBool _ => true
  | .u8, .vInt n => decide (0 ≤ n ∧ n < 2 ^ 8)
  | .i8, .vInt n => decide (-(2 ^ 7) ≤ n ∧ n < 2 ^ 7)
  | .u16, .vInt n => decide (0 ≤ n ∧ n < 2 ^ 16)
  | .i16, .vInt n => decide (-(2 ^ 15) ≤ n ∧ n < 2 ^ 15)
  | .u32, .vInt n => decide (0 ≤ n ∧ n < 2 ^ 32)
  | .i32, .vInt n => decide (-(2 ^ 31) ≤ n ∧ n < 2 ^ 31)
  | .u64, .vInt n => decide (0 ≤ n ∧ n < 2 ^ 64)
  | .i64, .vInt n => decide (-(2 ^ 63) ≤ n ∧ n < 2 ^ 63)
  | .u128, .vInt n => decide (0 ≤ n ∧ n < 2 ^ 128)
  | .i128, .vInt n => decide (-(2 ^ 127) ≤ n ∧ n < 2 ^ 127)
  | .f32, .vF32 bits => decide (bits < 2 ^ 32) && !isNan32 bits
  | .f64, .vF64 bits => decide (bits < 2 ^ 64) && !isNan64 bits
  | .bytes, .vBytes bs =>
    bs.all (fun b => decide (b < 256)) && decide (bs.length < 2 ^ 32)
  | .str, .vStr cs =>
    cs.all validScalar && decide ((utf8Encode cs).length < 2 ^ 32)
  | .vec s, .vList xs =>
    decide (xs.length < 2 ^ 32) && xs.all (fun x => admits s x)
  | .arr s n, .vList xs =>
    decide (xs.length = n) && xs.all (fun x => admits s x)
  | .option _, .vNone => true
  | .option s, v => admits s v
  | .hashMap k v, .vDict entries =>
    decide (entries.length < 2 ^ 32) &&
    pairwiseB (fun p q => pyLt p.1 q.1) entries &&
    entries.all (fun p =>
      admits k p.1 && Value.hashable p.1 && admits v p.2)
  | .hashSet s, .vSet xs =>
    decide (xs.length < 2 ^ 32) && pairwiseB pyLt xs &&
    xs.all (fun x => admits s x && Value.hashable x)
  | .tupleStruct ss, .vList xs => admitsTuple ss xs
  | .cStruct fs, .vRec fields => admitsFields fs fields
  | .enum vs, .vEnum i p =>
    decide (i < 256) &&
    match hshape : vs.get? i with
    | some (.unitS _) => decide (p = .vNone)
    | some (.tupleS _ ss) =>
      match p with
      | .vList xs => admitsTuple ss xs
      | _ => false
    | some (.structS _ fs) =>
      match p with
      | .vRec fields => admitsFields fs fields
      | _ => false
    | none => false
  | _, _ => false
  termination_by s _ => sizeOf s
  decreasing_by
    all_goals simp_wf
    all_goals try omega
    · have := Variants.sizeOf_get?_tuple _ _ _ _ hshape; omega
    · have := Variants.sizeOf_get?_struct _ _ _ _ hshape; omega

def admitsTuple : SchList → List Value → Bool
  | .nil, [] => true
  | .cons s ss, x :: xs => admits s x && admitsTuple ss xs
  | _, _ => false
  termination_by ss _ => sizeOf ss
  decreasing_by all_goals simp_wf <;> omega

def admitsFields : Fields → List (String × Value) → Bool
  | .nil, [] => true
  | .cons name s rest, (n, v) :: fvs =>
    name == n && admits s v && fvs.all (fun q => !(q.1 == n)) &&
    admitsFields rest fvs
  | _, _ => false
  termination_by fs _ => sizeOf fs
  decreasing_by all_goals simp_wf <;> omega

end

/-! ## Encoding

`encode s v` is `subcon.build(v)`: the byte string the construct
object for `s` writes for the Python value `v`, or the error the
Python call raises. -/

mutual

def encode : Sch → Value → Except Err (List Nat)
  | .bool, .vBool b => .ok [if b then 1 else 0]
  | .u8, .vInt n => intBuild 1 false n
  | .i8, .vInt n => intBuild 1 true n
  | .u16, .vInt n => intBuild 2 false n
  | .i16, .vInt n => intBuild 2 true n
  | .u32, .vInt n => intBuild 4 false n
  | .i32, .vInt n => intBuild 4 true n
  | .u64, .vInt n => intBuild 8 false n
  | .i64, .vInt n => intBuild 8 true n
  | .u128, .vInt n => intBuild 16 false n
  | .i128, .vInt n => intBuild 16 true n
  | .f32, .vF32 bits =>
    if isNan32 bits then .error .nan else .ok (toLE 4 bits)
  | .f64, .vF64 bits =>
    if isNan64 bits then .error .nan else .ok (toLE 8 bits)
  | .bytes, .vBytes bs => exCat (intBuild 4 false bs.length) (.ok bs)
  | .str, .vStr cs =>
    if cs.all validScalar then
      exCat (intBuild 4 false (utf8Encode cs).length) (.ok (utf8Encode cs))
    else .error .utf8
  | .vec s, .vList xs =>
    exCat (intBuild 4 false xs.length)
      (exJoin (xs.map (fun x => encode s x)))
  | .arr s n, .vList xs =>
    if xs.length = n then exJoin (xs.map (fun x => encode s x))
    else .error .lenMismatch
  | .option _, .vNone => .ok [0]
  | .option s, v => exCat (.ok [1]) (encode s v)
  | .hashMap k v, .vDict entries =>
    exCat (intBuild 4 false (sortBy pairLt entries).length)
      (exJoin ((sortBy pairLt entries).map
        (fun p => exCat (encode k p.1) (encode v p.2))))
  | .hashSet s, .vSet xs =>
    exCat (intBuild 4 false (sortBy pyLt xs).length)
      (exJoin ((sortBy pyLt xs).map (fun x => encode s x)))
  | .tupleStruct ss, .vList xs => encodeTuple ss xs
  | .cStruct fs, .vRec fields => encodeFields fs fields
  | .enum vs, .vEnum i p =>
    match hshape : vs.get? i with
    | none => .error .indexErr
    | some shape =>
      match p with
      | .vNone => intBuild 1 false i
      | .vRec [] => intBuild 1 false i
      | .vList xs =>
        match shape with
        | .tupleS _ ss => exCat (intBuild 1 false i) (encodeTuple ss xs)
        | _ => .error .typeErr
      | .vRec fvs =>
        match shape with
        | .structS _ fs => exCat (intBuild 1 false i) (encodeFields fs fvs)
        | _ => .error .typeErr
      | _ => .error .typeErr
  | _, _ => .error .typeErr
  termination_by s _ => sizeOf s
  decreasing_by
    all_goals simp_wf
    all_goals try omega
    · have := Variants.sizeOf_get?_tuple _ _ _ _ hshape; omega
    · have := Variants.sizeOf_get?_struct _ _ _ _ hshape; omega

def encodeTuple : SchList → List Value → Except Err (List Nat)
  | .nil, [] => .ok []
  | .cons s ss, x :: xs => exCat (encode s x) (encodeTuple ss xs)
  | _, _ => .error .lenMismatch
  termination_by ss _ => sizeOf ss
  decreasing_by all_goals simp_wf <;> omega

def encodeFields : Fields → List (String × Value) → Except Err (List Nat)
  | .nil, _ => .ok []
  | .cons name s rest, fvs =>
    match List.lookup name fvs with
    | some v => exCat (encode s v) (encodeFields rest fvs)
    | none => .error .keyErr
  termination_by fs _ => sizeOf fs
  decreasing_by all_goals simp_wf <;> omega

end

/-! ## Decoding

`decode s stream` is `subcon.parse_stream`: the Python value the
construct object for `s` parses from the front of `stream`, together
with the unconsumed rest, or the error the Python call raises. -/

mutual

def decode : Sch → List Nat → Except Err (Value × List Nat)
  | .bool, stream =>
    bindDec (read1 stream) (fun b rest => .ok (.vBool (b != 0), rest))
  | .u8, stream =>
    bindDec (readN 1 stream)
      (fun bs rest => .ok (.vInt (intParse 1 false bs), rest))
  | .i8, stream =>
    bindDec (readN 1 stream)
      (fun bs rest => .ok (.vInt (intParse 1 true bs), rest))
  | .u16, stream =>
    bindDec (readN 2 stream)
      (fun bs rest => .ok (.vInt (intParse 2 false bs), rest))
  | .i16, stream =>
    bindDec (readN 2 stream)
      (fun bs rest => .ok (.vInt (intParse 2 true bs), rest))
  | .u32, stream =>
    bindDec (readN 4 stream)
      (fun bs rest => .ok (.vInt (intParse 4 false bs), rest))
  | .i32, stream =>
    bindDec (readN 4 stream)
      (fun bs rest => .ok (.vInt (intParse 4 true bs), rest))
  | .u64, stream =>
    bindDec (readN 8 stream)
      (fun bs rest => .ok (.vInt (intParse 8 false bs), rest))
  | .i64, stream =>
    bindDec (readN 8 stream)
      (fun bs rest => .ok (.vInt (intParse 8 true bs), rest))
  | .u128, stream =>
    bindDec (readN 16 stream)
      (fun bs rest => .ok (.vInt (intParse 16 false bs), rest))
  | .i128, stream =>
    bindDec (readN 16 stream)
      (fun bs rest => .ok (.vInt (intParse 16 true bs), rest))
  | .f32, stream =>
    bindDec (readN 4 stream) (fun bs rest =>
      if isNan32 (fromLE bs) then .error .nan
      else .ok (.vF32 (fromLE bs), rest))
  | .f64, stream =>
    bindDec (readN 8 stream) (fun bs rest =>
      if isNan64 (fromLE bs) then .error .nan
      else .ok (.vF64 (fromLE bs), rest))
  | .bytes, stream =>
    bindDec (readN 4 stream) (fun p rest =>
      bindDec (readN (fromLE p) rest)
        (fun bs rest' => .ok (.vBytes bs, rest')))
  | .str, stream =>
    bindDec (readN 4 stream) (fun p rest =>
      bindDec (readN (fromLE p) rest) (fun bs rest' =>
        match utf8Decode bs with
        | .ok cs => .ok (.vStr cs, rest')
        | .error e => .error e))
  | .vec s, stream =>
    bindDec (readN 4 stream) (fun p rest =>
      mapFst .vList (decodeCount s (fromLE p) rest))
  | .arr s n, stream => mapFst .vList (decodeCount s n stream)
  | .option s, stream =>
    bindDec (read1 stream) (fun t rest =>
      if t = 0 then .ok (.vNone, rest) else decode s rest)
  | .hashMap k v, stream =>
    bindDec (readN 4 stream) (fun p rest =>
      bindDec (decodePairs k v (fromLE p) rest) (fun entries rest' =>
        if entries.all (fun e => Value.hashable e.1) then
          .ok (.vDict (dictOfList entries), rest')
        else .error .typeErr))
  | .hashSet s, stream =>
    bindDec (readN 4 stream) (fun p rest =>
      bindDec (decodeCount s (fromLE p) rest) (fun xs rest' =>
        if xs.all Value.hashable then .ok (.vSet (setOfList xs), rest')
        else .error .typeErr))
  | .tupleStruct ss, stream => mapFst .vList (decodeTuple ss stream)
  | .cStruct fs, stream => mapFst .vRec (decodeFields fs stream)
  | .enum vs, stream =>
    bindDec (read1 stream) (fun i rest =>
      match hshape : vs.get? i with
      | none => .error .indexErr
      | some (.unitS _) => .ok (.vEnum i .vNone, rest)
      | some (.tupleS _ ss) =>
        mapFst (fun xs => .vEnum i (.vList xs)) (decodeTuple ss rest)
      | some (.structS _ fs) =>
        mapFst (fun fields => .vEnum i (.vRec fields))
          (decodeFields fs rest))
  termination_by s _ => (sizeOf s, 0)
  decreasing_by
    all_goals simp_wf
    all_goals try omega
    · have := Variants.sizeOf_get?_tuple _ _ _ _ hshape; omega
    · have := Variants.sizeOf_get?_struct _ _ _ _ hshape; omega

def decodeCount : Sch → Nat → List Nat → Except Err (List Value × List Nat)
  | _, 0, stream => .ok ([], stream)
  | s, n + 1, stream =>
    bindDec (decode s stream) (fun v rest =>
      mapFst (fun vs => v :: vs) (decodeCount s n rest))
  termination_by s n _ => (sizeOf s, n + 1)
  decreasing_by all_goals simp_wf <;> omega

def decodePairs :
    Sch → Sch → Nat → List Nat →
      Except Err (List (Value × Value) × List Nat)
  | _, _, 0, stream => .ok ([], stream)
  | k, v, n + 1, stream =>
    bindDec (decode k stream) (fun a rest =>
      bindDec (decode v rest) (fun b rest' =>
        mapFst (fun es => (a, b) :: es) (decodePairs k v n rest')))
  termination_by k v n _ => (sizeOf k + sizeOf v, n + 1)
  decreasing_by
    all_goals simp_wf
    · have := Sch.one_le_sizeOf v; omega
    · have := Sch.one_le_sizeOf k; omega
    · omega

def decodeTuple : SchList → List Nat → Except Err (List Value × List Nat)
  | .nil, stream => .ok ([], stream)
  | .cons s ss, stream =>
    bindDec (decode s stream) (fun v rest =>
      mapFst (fun vs => v :: vs) (decodeTuple ss rest))
  termination_by ss _ => (sizeOf ss, 0)
  decreasing_by all_goals simp_wf <;> omega

def decodeFields :
    Fields → List Nat → Except Err (List (String × Value) × List Nat)
  | .nil, stream => .ok ([], stream)
  | .cons name s rest0, stream =>
    bindDec (decode s stream) (fun v rest =>
      mapFst (fun fvs => (name, v) :: fvs) (decodeFields rest0 rest))
  termination_by fs _ => (sizeOf fs, 0)
  decreasing_by all_goals simp_wf <;> omega

end

/-! ## Composition lemmas -/

@[simp] theorem bindDec_ok {α β : Type} (a : α) (rest : List Nat)
    (f : α → List Nat → Except Err β) :
    bindDec (.ok (a, rest)) f = f a rest := rfl

@[simp] theorem bindDec_err {α β : Type} (e : Err)
    (f : α → List Nat → Except Err β) :
    bindDec (α := α) (β := β) (.error e) f = .error e := rfl

@[simp] theorem mapFst_ok {α β : Type} (f : α → β) (a : α)
    (rest : List Nat) : mapFst f (.ok (a, rest)) = .ok (f a, rest) := rfl

@[simp] theorem mapFst_err {α β : Type} (f : α → β) (e : Err) :
    mapFst f (.error e) = .error e := rfl

@[simp] theorem exCat_ok_ok (x y : List Nat) :
    exCat (.ok x) (.ok y) = .ok (x ++ y) := rfl

@[simp] theorem exCat_err (e : Err) (b : Except Err (List Nat)) :
    exCat (.error e) b = .error e := rfl

theorem readN_toLE (w n : Nat) (rest : List Nat) :
    readN w (toLE w n ++ rest) = .ok (toLE w n, rest) := by
  have h := readN_append (toLE w n) rest
  rwa [toLE_length] at h

theorem pow_256_eq (w : Nat) : (256 : Nat) ^ w = 2 ^ (8 * w) := by
  rw [pow_mul]
  norm_num

theorem cast_two_pow (k : Nat) : (((2 : Nat) ^ k : Nat) : Int) = 2 ^ k := by
  push_cast
  ring

/-- On an in-range `Nat`, the little-endian build succeeds with the
`toLE` bytes. -/
theorem intBuild_ofNat (w m : Nat) (h : m < 256 ^ w) :
    intBuild w false (m : Int) = .ok (toLE w m) := by
  have hm : (m : Int) < 2 ^ (8 * w) := by
    rw [← cast_two_pow, ← pow_256_eq]
    exact_mod_cast h
  simp only [intBuild, Bool.false_eq_true, if_false]
  rw [if_pos ⟨by positivity, hm⟩,
    Int.emod_eq_of_lt (by positivity) hm, Int.toNat_natCast]

/-- `struct.pack` then `struct.unpack` (resp. `BytesInteger` build then
parse) is the identity on in-range integers, and produces exactly `w`
bytes. -/
theorem intBuild_intParse (w : Nat) (signed : Bool) (n : Int) (hw : 0 < w)
    (h : (if signed then -((2 : Int) ^ (8 * w - 1)) else 0) ≤ n ∧
      n < if signed then (2 : Int) ^ (8 * w - 1) else 2 ^ (8 * w)) :
    ∃ bs, intBuild w signed n = .ok bs ∧ bs.length = w ∧
      intParse w signed bs = n := by
  have hMH : (2 : Int) ^ (8 * w) = 2 * 2 ^ (8 * w - 1) := by
    rw [← pow_succ']
    congr 1
    omega
  have hH : (0 : Int) < 2 ^ (8 * w - 1) := by positivity
  have hMpos : (0 : Int) < 2 ^ (8 * w) := by positivity
  have hrange : -(2 ^ (8 * w - 1)) ≤ n ∧ n < 2 ^ (8 * w) := by
    cases signed <;> simp only [Bool.false_eq_true, if_false, if_true] at h <;>
      constructor <;> omega
  have hemod_nonneg : 0 ≤ n % 2 ^ (8 * w) :=
    Int.emod_nonneg n (by positivity)
  have hemod_lt : n % 2 ^ (8 * w) < 2 ^ (8 * w) :=
    Int.emod_lt_of_pos n hMpos
  have hemod_val : n % 2 ^ (8 * w) = if 0 ≤ n then n
      else n + 2 ^ (8 * w) := by
    by_cases hn : 0 ≤ n
    · rw [if_pos hn]
      exact Int.emod_eq_of_lt hn hrange.2
    · rw [if_neg hn]
      have hstep : (n + 2 ^ (8 * w) * 1) % 2 ^ (8 * w) =
          n % 2 ^ (8 * w) := Int.add_mul_emod_self_left n (2 ^ (8 * w)) 1
      rw [← hstep, Int.emod_eq_of_lt (by omega) (by omega)]
      ring
  refine ⟨toLE w (n % 2 ^ (8 * w)).toNat, ?_, toLE_length _ _, ?_⟩
  · simp only [intBuild]
    rw [if_pos h]
  · have htoNat_lt : (n % 2 ^ (8 * w)).toNat < 256 ^ w := by
      rw [pow_256_eq]
      have := cast_two_pow (8 * w)
      omega
    have hfrom : fromLE (toLE w (n % 2 ^ (8 * w)).toNat) =
        (n % 2 ^ (8 * w)).toNat := fromLE_toLE _ _ htoNat_lt
    have hcastH := cast_two_pow (8 * w - 1)
    unfold intParse
    simp only [hfrom]
    split
    · rename_i hcond
      obtain ⟨hsig, hge⟩ := hcond
      subst hsig
      simp only [Bool.false_eq_true, if_false, if_true] at h
      omega
    · rename_i hcond
      rw [not_and_or] at hcond
      cases signed with
      | false =>
        simp only [Bool.false_eq_true, if_false] at h
        omega
      | true =>
        simp only [if_true] at h
        rcases hcond with hc | hc
        · exact absurd rfl hc
        · rw [not_le] at hc
          omega

/-- `pyLt` separates: strictly related values are distinct. -/
theorem pyLt_ne {a b : Value} (h : pyLt a b = true) : a ≠ b := by
  intro hE
  subst hE
  rw [pyLt_irrefl] at h
  exact Bool.noConfusion h

theorem dictInsert_append (acc : List (Value × Value)) (kv : Value × Value)
    (h : ∀ p ∈ acc, p.1 ≠ kv.1) : dictInsert acc kv = acc ++ [kv] := by
  induction acc with
  | nil => rfl
  | cons p rest ih =>
    obtain ⟨k0, v0⟩ := p
    obtain ⟨k, v⟩ := kv
    simp only [dictInsert]
    rw [if_neg (h (k0, v0) (List.mem_cons_self _ _))]
    rw [ih (fun q hq => h q (List.mem_cons_of_mem _ hq))]
    simp

/-- `dict(pairs)` returns the pairs unchanged when all keys are
distinct. -/
theorem dictOfList_id (l : List (Value × Value))
    (h : l.Pairwise (fun a b => a.1 ≠ b.1)) : dictOfList l = l := by
  suffices key : ∀ acc, (∀ p ∈ acc, ∀ q ∈ l, p.1 ≠ q.1) →
      List.foldl dictInsert acc l = acc ++ l by
    simpa using key [] (by simp)
  induction l with
  | nil => simp
  | cons kv rest ih =>
    intro acc hacc
    rw [List.pairwise_cons] at h
    simp only [List.foldl_cons]
    rw [dictInsert_append acc kv
      (fun p hp => hacc p hp kv (List.mem_cons_self _ _))]
    rw [ih h.2 (acc ++ [kv]) ?_]
    · simp
    · intro p hp q hq
      rcases List.mem_append.mp hp with hp' | hp'
      · exact hacc p hp' q (List.mem_cons_of_mem _ hq)
      · have : p = kv := by simpa using hp'
        subst this
        exact h.1 q hq

theorem setInsert_append (acc : List Value) (x : Value)
    (h : ∀ y ∈ acc, y ≠ x) : setInsert acc x = acc ++ [x] := by
  induction acc with
  | nil => rfl
  | cons y rest ih =>
    simp only [setInsert]
    rw [if_neg (h y (List.mem_cons_self _ _))]
    rw [ih (fun z hz => h z (List.mem_cons_of_mem _ hz))]
    simp

/-- `set(xs)` returns the elements unchanged when they are pairwise
distinct. -/
theorem setOfList_id (l : List Value) (h : l.Pairwise (· ≠ ·)) :
    setOfList l = l := by
  suffices key : ∀ acc, (∀ p ∈ acc, ∀ q ∈ l, p ≠ q) →
      List.foldl setInsert acc l = acc ++ l by
    simpa using key [] (by simp)
  induction l with
  | nil => simp
  | cons x rest ih =>
    intro acc hacc
    rw [List.pairwise_cons] at h
    simp only [List.foldl_cons]
    rw [setInsert_append acc x
      (fun p hp => hacc p hp x (List.mem_cons_self _ _))]
    rw [ih h.2 (acc ++ [x]) ?_]
    · simp
    · intro p hp q hq
      rcases List.mem_append.mp hp with hp' | hp'
      · exact hacc p hp' q (List.mem_cons_of_mem _ hq)
      · have : p = x := by simpa using hp'
        subst this
        exact h.1 q hq

/-! ## Helpers about admissibility and sorting -/

/-- Declared field names of a `Struct`, in order. -/
def Fields.names : Fields → List String
  | .nil => []
  | .cons name _ rest => name :: rest.names

theorem admitsFields_names : ∀ (fs : Fields) (fvs : List (String × Value)),
    admitsFields fs fvs = true → fs.names = fvs.map Prod.fst
  | .nil, [], _ => rfl
  | .nil, _ :: _, h => by simp [admitsFields] at h
  | .cons _ _ _, [], h => by simp [admitsFields] at h
  | .cons name s rest, (n, v) :: fvs, h => by
    rw [admitsFields] at h
    simp only [Bool.and_eq_true, beq_iff_eq] at h
    obtain ⟨⟨⟨hname, -⟩, -⟩, hrest⟩ := h
    simp only [Fields.names, List.map_cons]
    rw [hname, admitsFields_names rest fvs hrest]

/-- A field whose name differs from every declared name does not
affect `encodeFields` (it is an ignored extra dict entry). -/
theorem encodeFields_skip : ∀ (fs : Fields) (n : String) (v : Value)
    (fvs : List (String × Value)), (∀ m ∈ fs.names, m ≠ n) →
    encodeFields fs ((n, v) :: fvs) = encodeFields fs fvs
  | .nil, _, _, _, _ => by rw [encodeFields, encodeFields]
  | .cons name s rest, n, v, fvs, h => by
    have hne : name ≠ n := h name (by simp [Fields.names])
    rw [encodeFields, encodeFields]
    rw [show List.lookup name ((n, v) :: fvs) = List.lookup name fvs by
      simp [List.lookup, beq_eq_false_iff_ne.mpr hne]]
    cases List.lookup name fvs with
    | none => rfl
    | some w =>
      rw [encodeFields_skip rest n v fvs
        (fun m hm => h m (by simp [Fields.names, hm]))]

/-- A strictly `pyLt`-ascending key list makes the entry list strictly
`pairLt`-ascending. -/
theorem pairwise_keyLt_pairLt (l : List (Value × Value))
    (h : pairwiseB (fun p q => pyLt p.1 q.1) l = true) :
    l.Pairwise (fun a b => pairLt a b = true) := by
  rw [pairwiseB_iff] at h
  refine h.imp ?_
  intro a b hab
  simp only [pairLt]
  rw [if_neg (fun hE => pyLt_ne hab hE)]
  exact hab

theorem pairwise_keys_ne (l : List (Value × Value))
    (h : pairwiseB (fun p q => pyLt p.1 q.1) l = true) :
    l.Pairwise (fun a b => a.1 ≠ b.1) := by
  rw [pairwiseB_iff] at h
  exact h.imp (fun hab => pyLt_ne hab)

theorem pairwise_elems_ne (l : List Value) (h : pairwiseB pyLt l = true) :
    l.Pairwise (· ≠ ·) := by
  rw [pairwiseB_iff] at h
  exact h.imp (fun hab => pyLt_ne hab)

/-- `sorted(obj.items())` is the identity on the canonical
(strictly key-ascending) entry list. -/
theorem sortPairs_id (l : List (Value × Value))
    (h : pairwiseB (fun p q => pyLt p.1 q.1) l = true) :
    sortBy pairLt l = l :=
  sortBy_eq_of_perm pairLt pairLt_asymm pairLt_trans l l (List.Perm.refl l)
    (pairwise_keyLt_pairLt l h)

/-- `sorted(obj)` is the identity on the canonical (strictly
ascending) element list. -/
theorem sortElems_id (l : List Value) (h : pairwiseB pyLt l = true) :
    sortBy pyLt l = l :=
  sortBy_eq_of_perm pyLt pyLt_asymm pyLt_trans l l (List.Perm.refl l)
    (by rw [pairwiseB_iff] at h; exact h)

/-- The `Option` build path for a present (non-`None`) value. -/
theorem encode_option_some (s : Sch) (v : Value) (hv : v ≠ .vNone) :
    encode (.option s) v = exCat (.ok [1]) (encode s v) := by
  cases v <;> first | (exact absurd rfl hv) | simp [encode]

/-- The `Option` admissibility for a present (non-`None`) value. -/
theorem admits_option_some (s : Sch) (v : Value) (hv : v ≠ .vNone) :
    admits (.option s) v = admits s v := by
  cases v <;> first | (exact absurd rfl hv) | simp [admits]

theorem utf8Decode_encode_nil (cs : List Nat)
    (h : ∀ c ∈ cs, validScalar c = true) :
    utf8Decode (utf8Encode cs) = .ok cs := by
  have key := utf8Decode_encode cs h []
  rw [List.append_nil] at key
  rw [key, utf8Decode_nil]
  simp

/-! ## Enum equation helpers

The `Enum` branches of `admits`/`encode`/`decode` contain dependent
matches on `vs.get? i` (needed for termination); these lemmas restate
them as plain equations usable by `rw`. -/

theorem admits_enum (vs : Variants) (i : Nat) (p : Value) :
    admits (.enum vs) (.vEnum i p) =
      (decide (i < 256) &&
        match vs.get? i with
        | some (.unitS _) => decide (p = .vNone)
        | some (.tupleS _ ss) =>
          match p with
          | .vList xs => admitsTuple ss xs
          | _ => false
        | some (.structS _ fs) =>
          match p with
          | .vRec fields => admitsFields fs fields
          | _ => false
        | none => false) := by
  rw [admits]
  congr 1
  split <;> rename_i heq <;> rw [heq]

theorem encode_enum_eq (vs : Variants) (i : Nat) (p : Value) :
    encode (.enum vs) (.vEnum i p) =
      (match vs.get? i with
      | none => .error .indexErr
      | some shape =>
        match p with
        | .vNone => intBuild 1 false i
        | .vRec [] => intBuild 1 false i
        | .vList xs =>
          match shape with
          | .tupleS _ ss => exCat (intBuild 1 false i) (encodeTuple ss xs)
          | _ => .error .typeErr
        | .vRec fvs =>
          match shape with
          | .structS _ fs => exCat (intBuild 1 false i) (encodeFields fs fvs)
          | _ => .error .typeErr
        | _ => .error .typeErr) := by
  rw [encode]
  split
  · rename_i heq
    conv_rhs => rw [heq]
  · rename_i shape heq
    conv_rhs => rw [heq]
    cases p <;>
      first
        | rfl
        | (cases shape <;> rfl)
        | (rename_i fields; cases fields <;> cases shape <;> rfl)

theorem decode_enum_cons (vs : Variants) (b : Nat) (stream : List Nat) :
    decode (.enum vs) (b :: stream) =
      (match vs.get? b with
      | none => .error .indexErr
      | some (.unitS _) => .ok (.vEnum b .vNone, stream)
      | some (.tupleS _ ss) =>
        mapFst (fun xs => .vEnum b (.vList xs)) (decodeTuple ss stream)
      | some (.structS _ fs) =>
        mapFst (fun fields => .vEnum b (.vRec fields))
          (decodeFields fs stream)) := by
  rw [decode]
  rw [show read1 (b :: stream) = .ok (b, stream) from rfl, bindDec_ok]
  split <;> rename_i heq <;> rw [heq]

theorem decode_enum_nil (vs : Variants) :
    decode (.enum vs) [] = .error .underflow := by
  rw [decode]
  rfl

/-! ## The round-trip theorem

For every schema and every admissible value, building then parsing
returns the value and consumes exactly the built bytes. -/

mutual

theorem encode_decode : ∀ (s : Sch) (v : Value), admits s v = true →
    ∀ rest : List Nat,
      ∃ bs, encode s v = .ok bs ∧ decode s (bs ++ rest) = .ok (v, rest)
  | .bool, v, h, rest => by
    cases v
    case vBool b =>
      refine ⟨[if b then 1 else 0], by rw [encode], ?_⟩
      rw [decode]
      cases b <;> simp [read1]
    all_goals simp [admits] at h
  | .u8, v, h, rest => by
    cases v
    case vInt n =>
      rw [admits, decide_eq_true_eq] at h
      obtain ⟨bs, hb, hlen, hparse⟩ := intBuild_intParse 1 false n
        (by norm_num) (by simpa using h)
      refine ⟨bs, by rw [encode]; exact hb, ?_⟩
      rw [decode, show readN 1 (bs ++ rest) = .ok (bs, rest) by
        rw [← hlen]; exact readN_append bs rest, bindDec_ok, hparse]
    all_goals simp [admits] at h
  | .i8, v, h, rest => by
    cases v
    case vInt n =>
      rw [admits, decide_eq_true_eq] at h
      obtain ⟨bs, hb, hlen, hparse⟩ := intBuild_intParse 1 true n
        (by norm_num) (by simpa using h)
      refine ⟨bs, by rw [encode]; exact hb, ?_⟩
      rw [decode, show readN 1 (bs ++ rest) = .ok (bs, rest) by
        rw [← hlen]; exact readN_append bs rest, bindDec_ok, hparse]
    all_goals simp [admits] at h
  | .u16, v, h, rest => by
    cases v
    case vInt n =>
      rw [admits, decide_eq_true_eq] at h
      obtain ⟨bs, hb, hlen, hparse⟩ := intBuild_intParse 2 false n
        (by norm_num) (by simpa using h)
      refine ⟨bs, by rw [encode]; exact hb, ?_⟩
      rw [decode, show readN 2 (bs ++ rest) = .ok (bs, rest) by
        rw [← hlen]; exact readN_append bs rest, bindDec_ok, hparse]
    all_goals simp [admits] at h
  | .i16, v, h, rest => by
    cases v
    case vInt n =>
      rw [admits, decide_eq_true_eq] at h
      obtain ⟨bs, hb, hlen, hparse⟩ := intBuild_intParse 2 true n
        (by norm_num) (by simpa using h)
      refine ⟨bs, by rw [encode]; exact hb, ?_⟩
      rw [decode, show readN 2 (bs ++ rest) = .ok (bs, rest) by
        rw [← hlen]; exact readN_append bs rest, bindDec_ok, hparse]
    all_goals simp [admits] at h
  | .u32, v, h, rest => by
    cases v
    case vInt n =>
      rw [admits, decide_eq_true_eq] at h
      obtain ⟨bs, hb, hlen, hparse⟩ := intBuild_intParse 4 false n
        (by norm_num) (by simpa using h)
      refine ⟨bs, by rw [encode]; exact hb, ?_⟩
      rw [decode, show readN 4 (bs ++ rest) = .ok (bs, rest) by
        rw [← hlen]; exact readN_append bs rest, bindDec_ok, hparse]
    all_goals simp [admits] at h
  | .i32, v, h, rest => by
    cases v
    case vInt n =>
      rw [admits, decide_eq_true_eq] at h
      obtain ⟨bs, hb, hlen, hparse⟩ := intBuild_intParse 4 true n
        (by norm_num) (by simpa using h)
      refine ⟨bs, by rw [encode]; exact hb, ?_⟩
      rw [decode, show readN 4 (bs ++ rest) = .ok (bs, rest) by
        rw [← hlen]; exact readN_append bs rest, bindDec_ok, hparse]
    all_goals simp [admits] at h
  | .u64, v, h, rest => by
    cases v
    case vInt n =>
      rw [admits, decide_eq_true_eq] at h
      obtain ⟨bs, hb, hlen, hparse⟩ := intBuild_intParse 8 false n
        (by norm_num) (by simpa using h)
      refine ⟨bs, by rw [encode]; exact hb, ?_⟩
      rw [decode, show readN 8 (bs ++ rest) = .ok (bs, rest) by
        rw [← hlen]; exact readN_append bs rest, bindDec_ok, hparse]
    all_goals simp [admits] at h
  | .i64, v, h, rest => by
    cases v
    case vInt n =>
      rw [admits, decide_eq_true_eq] at h
      obtain ⟨bs, hb, hlen, hparse⟩ := intBuild_intParse 8 true n
        (by norm_num) (by simpa using h)
      refine ⟨bs, by rw [encode]; exact hb, ?_⟩
      rw [decode, show readN 8 (bs ++ rest) = .ok (bs, rest) by
        rw [← hlen]; exact readN_append bs rest, bindDec_ok, hparse]
    all_goals simp [admits] at h
  | .u128, v, h, rest => by
    cases v
    case vInt n =>
      rw [admits, decide_eq_true_eq] at h
      obtain ⟨bs, hb, hlen, hparse⟩ := intBuild_intParse 16 false n
        (by norm_num) (by simpa using h)
      refine ⟨bs, by rw [encode]; exact hb, ?_⟩
      rw [decode, show readN 16 (bs ++ rest) = .ok (bs, rest) by
        rw [← hlen]; exact readN_append bs rest, bindDec_ok, hparse]
    all_goals simp [admits] at h
  | .i128, v, h, rest => by
    cases v
    case vInt n =>
      rw [admits, decide_eq_true_eq] at h
      obtain ⟨bs, hb, hlen, hparse⟩ := intBuild_intParse 16 true n
        (by norm_num) (by simpa using h)
      refine ⟨bs, by rw [encode]; exact hb, ?_⟩
      rw [decode, show readN 16 (bs ++ rest) = .ok (bs, rest) by
        rw [← hlen]; exact readN_append bs rest, bindDec_ok, hparse]
    all_goals simp [admits] at h
  | .f32, v, h, rest => by
    cases v
    case vF32 bits =>
      rw [admits] at h
      simp only [Bool.and_eq_true, decide_eq_true_eq, Bool.not_eq_true']
        at h
      refine ⟨toLE 4 bits, by rw [encode, if_neg (by simp [h.2])], ?_⟩
      rw [decode, readN_toLE, bindDec_ok,
        fromLE_toLE 4 bits (by rw [pow_256_eq]; exact h.1), h.2]
      rw [if_neg (by simp)]
    all_goals simp [admits] at h
  | .f64, v, h, rest => by
    cases v
    case vF64 bits =>
      rw [admits] at h
      simp only [Bool.and_eq_true, decide_eq_true_eq, Bool.not_eq_true']
        at h
      refine ⟨toLE 8 bits, by rw [encode, if_neg (by simp [h.2])], ?_⟩
      rw [decode, readN_toLE, bindDec_ok,
        fromLE_toLE 8 bits (by rw [pow_256_eq]; exact h.1), h.2]
      rw [if_neg (by simp)]
    all_goals simp [admits] at h
  | .bytes, v, h, rest => by
    cases v
    case vBytes bs =>
      rw [admits] at h
      simp only [Bool.and_eq_true, decide_eq_true_eq] at h
      refine ⟨toLE 4 bs.length ++ bs, ?_, ?_⟩
      · rw [encode, intBuild_ofNat 4 bs.length (by norm_num; omega),
          exCat_ok_ok]
      · rw [decode, List.append_assoc, readN_toLE, bindDec_ok,
          fromLE_toLE 4 bs.length (by norm_num; omega),
          readN_append bs rest, bindDec_ok]
    all_goals simp [admits] at h
  | .str, v, h, rest => by
    cases v
    case vStr cs =>
      rw [admits] at h
      simp only [Bool.and_eq_true, decide_eq_true_eq, List.all_eq_true]
        at h
      obtain ⟨hvalid, hlen⟩ := h
      refine ⟨toLE 4 (utf8Encode cs).length ++ utf8Encode cs, ?_, ?_⟩
      · rw [encode, if_pos (List.all_eq_true.mpr hvalid),
          intBuild_ofNat 4 _ (by norm_num; omega), exCat_ok_ok]
      · rw [decode, List.append_assoc, readN_toLE, bindDec_ok,
          fromLE_toLE 4 _ (by norm_num; omega),
          readN_append (utf8Encode cs) rest, bindDec_ok,
          utf8Decode_encode_nil cs hvalid]
    all_goals simp [admits] at h
  | .vec s, v, h, rest => by
    cases v
    case vList xs =>
      rw [admits] at h
      simp only [Bool.and_eq_true, decide_eq_true_eq, List.all_eq_true]
        at h
      obtain ⟨hlen, hall⟩ := h
      obtain ⟨body, hbody, hdec⟩ := encode_decode_count s xs hall rest
      refine ⟨toLE 4 xs.length ++ body, ?_, ?_⟩
      · rw [encode, intBuild_ofNat 4 xs.length (by norm_num; omega),
          hbody, exCat_ok_ok]
      · rw [decode, List.append_assoc, readN_toLE, bindDec_ok,
          fromLE_toLE 4 xs.length (by norm_num; omega), hdec, mapFst_ok]
    all_goals simp [admits] at h
  | .arr s n, v, h, rest => by
    cases v
    case vList xs =>
      rw [admits] at h
      simp only [Bool.and_eq_true, decide_eq_true_eq, List.all_eq_true]
        at h
      obtain ⟨hlen, hall⟩ := h
      obtain ⟨body, hbody, hdec⟩ := encode_decode_count s xs hall rest
      refine ⟨body, ?_, ?_⟩
      · rw [encode, if_pos hlen]
        exact hbody
      · rw [decode, ← hlen, hdec, mapFst_ok]
    all_goals simp [admits] at h
  | .option s, v, h, rest => by
    rcases eq_or_ne v .vNone with rfl | hne
    · refine ⟨[0], by rw [encode], ?_⟩
      rw [decode]
      simp [read1]
    · rw [admits_option_some s v hne] at h
      obtain ⟨bs, hb, hdec⟩ := encode_decode s v h rest
      refine ⟨1 :: bs, ?_, ?_⟩
      · rw [encode_option_some s v hne, hb, exCat_ok_ok]
        rfl
      · rw [decode]
        rw [show read1 ((1 :: bs) ++ rest) = .ok (1, bs ++ rest) from rfl,
          bindDec_ok, if_neg (by omega)]
        exact hdec
  | .hashMap k v, w, h, rest => by
    cases w
    case vDict entries =>
      rw [admits] at h
      simp only [Bool.and_eq_true, decide_eq_true_eq, List.all_eq_true]
        at h
      obtain ⟨⟨hlen, hsorted⟩, hall⟩ := h
      have hs : sortBy pairLt entries = entries := sortPairs_id entries hsorted
      obtain ⟨body, hbody, hdec⟩ := encode_decode_pairs k v entries
        (fun p hp => ⟨(hall p hp).1.1, (hall p hp).2⟩) rest
      refine ⟨toLE 4 entries.length ++ body, ?_, ?_⟩
      · rw [encode, hs, intBuild_ofNat 4 entries.length (by norm_num; omega),
          hbody, exCat_ok_ok]
      · rw [decode, List.append_assoc, readN_toLE, bindDec_ok,
          fromLE_toLE 4 entries.length (by norm_num; omega), hdec,
          bindDec_ok,
          if_pos (List.all_eq_true.mpr (fun e he => (hall e he).1.2)),
          dictOfList_id entries (pairwise_keys_ne entries hsorted)]
    all_goals simp [admits] at h
  | .hashSet s, v, h, rest => by
    cases v
    case vSet xs =>
      rw [admits] at h
      simp only [Bool.and_eq_true, decide_eq_true_eq, List.all_eq_true]
        at h
      obtain ⟨⟨hlen, hsorted⟩, hall⟩ := h
      have hs : sortBy pyLt xs = xs := sortElems_id xs hsorted
      obtain ⟨body, hbody, hdec⟩ := encode_decode_count s xs
        (fun x hx => (hall x hx).1) rest
      refine ⟨toLE 4 xs.length ++ body, ?_, ?_⟩
      · rw [encode, hs, intBuild_ofNat 4 xs.length (by norm_num; omega),
          hbody, exCat_ok_ok]
      · rw [decode, List.append_assoc, readN_toLE, bindDec_ok,
          fromLE_toLE 4 xs.length (by norm_num; omega), hdec, bindDec_ok,
          if_pos (List.all_eq_true.mpr (fun x hx => (hall x hx).2)),
          setOfList_id xs (pairwise_elems_ne xs hsorted)]
    all_goals simp [admits] at h
  | .tupleStruct ss, v, h, rest => by
    cases v
    case vList xs =>
      rw [admits] at h
      obtain ⟨body, hbody, hdec⟩ := encode_decode_tuple ss xs h rest
      refine ⟨body, by rw [encode]; exact hbody, ?_⟩
      rw [decode, hdec, mapFst_ok]
    all_goals simp [admits] at h
  | .cStruct fs, v, h, rest => by
    cases v
    case vRec fields =>
      rw [admits] at h
      obtain ⟨body, hbody, hdec⟩ := encode_decode_fields fs fields h rest
      refine ⟨body, by rw [encode]; exact hbody, ?_⟩
      rw [decode, hdec, mapFst_ok]
    all_goals simp [admits] at h
  | .enum vs, v, h, rest => by
    cases v
    case vEnum i p =>
      rw [admits_enum] at h
      simp only [Bool.and_eq_true, decide_eq_true_eq] at h
      obtain ⟨hi, hp⟩ := h
      have hbyte : intBuild 1 false (i : Int) = .ok [i] := by
        have key := intBuild_ofNat 1 i (by norm_num; omega)
        rwa [show toLE 1 i = [i] by
          simp only [toLE]
          rw [Nat.mod_eq_of_lt hi]] at key
      cases hshape : vs.get? i with
      | none => rw [hshape] at hp; exact Bool.noConfusion hp
      | some shape =>
        rw [hshape] at hp
        cases shape with
        | unitS name =>
          dsimp only at hp
          rw [decide_eq_true_eq] at hp
          subst hp
          refine ⟨[i], ?_, ?_⟩
          · rw [encode_enum_eq, hshape]
            dsimp only
            exact hbyte
          · rw [show ([i] ++ rest : List Nat) = i :: rest from rfl,
              decode_enum_cons, hshape]
        | tupleS name ss =>
          cases p
          case vList xs =>
            dsimp only at hp
            obtain ⟨body, hbody, hdec⟩ := encode_decode_tuple ss xs hp rest
            refine ⟨i :: body, ?_, ?_⟩
            · rw [encode_enum_eq, hshape]
              dsimp only
              rw [hbyte, hbody, exCat_ok_ok]
              rfl
            · rw [show ((i :: body) ++ rest : List Nat) =
                i :: (body ++ rest) from rfl, decode_enum_cons, hshape]
              dsimp only
              rw [hdec, mapFst_ok]
          all_goals (dsimp only at hp; exact Bool.noConfusion hp)
        | structS name fs =>
          cases p
          case vRec fields =>
            dsimp only at hp
            obtain ⟨body, hbody, hdec⟩ :=
              encode_decode_fields fs fields hp rest
            cases fields with
            | nil =>
              have hfs : fs = .nil := by
                cases fs with
                | nil => rfl
                | cons a b c => simp [admitsFields] at hp
              subst hfs
              refine ⟨[i], ?_, ?_⟩
              · rw [encode_enum_eq, hshape]
                dsimp only
                exact hbyte
              · rw [show ([i] ++ rest : List Nat) = i :: rest from rfl,
                  decode_enum_cons, hshape]
                dsimp only
                rw [decodeFields, mapFst_ok]
            | cons f fvs =>
              refine ⟨i :: body, ?_, ?_⟩
              · rw [encode_enum_eq, hshape]
                dsimp only
                rw [hbyte, hbody, exCat_ok_ok]
                rfl
              · rw [show ((i :: body) ++ rest : List Nat) =
                  i :: (body ++ rest) from rfl, decode_enum_cons, hshape]
                dsimp only
                rw [hdec, mapFst_ok]
          all_goals (dsimp only at hp; exact Bool.noConfusion hp)
    all_goals simp [admits] at h
  termination_by s _ _ _ => (sizeOf s, 0)
  decreasing_by
    all_goals simp_wf
    all_goals try omega
    all_goals try (have hsz := Variants.sizeOf_get?_tuple _ _ _ _ hshape; omega)
    all_goals try (have hsz := Variants.sizeOf_get?_struct _ _ _ _ hshape; omega)

theorem encode_decode_count : ∀ (s : Sch) (xs : List Value),
    (∀ x ∈ xs, admits s x = true) → ∀ rest : List Nat,
      ∃ bs, exJoin (xs.map (fun x => encode s x)) = .ok bs ∧
        decodeCount s xs.length (bs ++ rest) = .ok (xs, rest)
  | s, [], _, rest => ⟨[], by rw [List.map_nil, exJoin], by
      rw [List.length_nil, decodeCount, List.nil_append]⟩
  | s, x :: xs, h, rest => by
    obtain ⟨body, hbody, hdec⟩ := encode_decode_count s xs
      (fun y hy => h y (List.mem_cons_of_mem x hy)) rest
    obtain ⟨bx, hbx, hdx⟩ := encode_decode s x
      (h x (List.mem_cons_self x xs)) (body ++ rest)
    refine ⟨bx ++ body, ?_, ?_⟩
    · rw [List.map_cons, exJoin, hbx, hbody, exCat_ok_ok]
    · rw [List.length_cons, decodeCount, List.append_assoc, hdx,
        bindDec_ok, hdec, mapFst_ok]
  termination_by s xs _ _ => (sizeOf s, xs.length + 1)
  decreasing_by all_goals simp_wf <;> omega

theorem encode_decode_pairs : ∀ (k v : Sch) (es : List (Value × Value)),
    (∀ p ∈ es, admits k p.1 = true ∧ admits v p.2 = true) →
    ∀ rest : List Nat,
      ∃ bs, exJoin (es.map (fun p => exCat (encode k p.1) (encode v p.2))) =
          .ok bs ∧
        decodePairs k v es.length (bs ++ rest) = .ok (es, rest)
  | k, v, [], _, rest => ⟨[], by rw [List.map_nil, exJoin], by
      rw [List.length_nil, decodePairs, List.nil_append]⟩
  | k, v, (a, b) :: es, h, rest => by
    obtain ⟨body, hbody, hdec⟩ := encode_decode_pairs k v es
      (fun p hp => h p (List.mem_cons_of_mem _ hp)) rest
    have hab := h (a, b) (List.mem_cons_self _ _)
    obtain ⟨bb, hbb, hdb⟩ := encode_decode v b hab.2 (body ++ rest)
    obtain ⟨ba, hba, hda⟩ := encode_decode k a hab.1 (bb ++ (body ++ rest))
    refine ⟨(ba ++ bb) ++ body, ?_, ?_⟩
    · rw [List.map_cons, exJoin, hba, hbb, exCat_ok_ok, hbody, exCat_ok_ok]
    · rw [List.length_cons, decodePairs, List.append_assoc,
        List.append_assoc, hda, bindDec_ok, hdb, bindDec_ok, hdec,
        mapFst_ok]
  termination_by k v es _ _ => (sizeOf k + sizeOf v, es.length + 1)
  decreasing_by
    all_goals simp_wf
    · have := Sch.one_le_sizeOf v; omega
    · have := Sch.one_le_sizeOf k; omega
    · omega

theorem encode_decode_tuple : ∀ (ss : SchList) (xs : List Value),
    admitsTuple ss xs = true → ∀ rest : List Nat,
      ∃ bs, encodeTuple ss xs = .ok bs ∧
        decodeTuple ss (bs ++ rest) = .ok (xs, rest)
  | .nil, [], _, rest => ⟨[], by rw [encodeTuple], by
      rw [decodeTuple, List.nil_append]⟩
  | .nil, _ :: _, h, _ => by simp [admitsTuple] at h
  | .cons _ _, [], h, _ => by simp [admitsTuple] at h
  | .cons s ss, x :: xs, h, rest => by
    rw [admitsTuple, Bool.and_eq_true] at h
    obtain ⟨body, hbody, hdec⟩ := encode_decode_tuple ss xs h.2 rest
    obtain ⟨bx, hbx, hdx⟩ := encode_decode s x h.1 (body ++ rest)
    refine ⟨bx ++ body, ?_, ?_⟩
    · rw [encodeTuple, hbx, hbody, exCat_ok_ok]
    · rw [decodeTuple, List.append_assoc, hdx, bindDec_ok, hdec, mapFst_ok]
  termination_by ss _ _ _ => (sizeOf ss, 0)
  decreasing_by all_goals simp_wf <;> omega

theorem encode_decode_fields : ∀ (fs : Fields) (fvs : List (String × Value)),
    admitsFields fs fvs = true → ∀ rest : List Nat,
      ∃ bs, encodeFields fs fvs = .ok bs ∧
        decodeFields fs (bs ++ rest) = .ok (fvs, rest)
  | .nil, [], _, rest => ⟨[], by rw [encodeFields], by
      rw [decodeFields, List.nil_append]⟩
  | .nil, _ :: _, h, _ => by simp [admitsFields] at h
  | .cons _ _ _, [], h, _ => by simp [admitsFields] at h
  | .cons name s rest0, (n, v) :: fvs, h, rest => by
    rw [admitsFields] at h
    simp only [Bool.and_eq_true, beq_iff_eq, List.all_eq_true,
      Bool.not_eq_true', beq_eq_false_iff_ne] at h
    obtain ⟨⟨⟨hname, hv⟩, hdistinct⟩, hrest⟩ := h
    subst hname
    obtain ⟨body, hbody, hdec⟩ := encode_decode_fields rest0 fvs hrest rest
    obtain ⟨bv, hbv, hdv⟩ := encode_decode s v hv (body ++ rest)
    have hskip : encodeFields rest0 ((name, v) :: fvs) =
        encodeFields rest0 fvs := by
      refine encodeFields_skip rest0 name v fvs ?_
      rw [admitsFields_names rest0 fvs hrest]
      intro m hm
      rw [List.mem_map] at hm
      obtain ⟨q, hq, rfl⟩ := hm
      exact hdistinct q hq
    refine ⟨bv ++ body, ?_, ?_⟩
    · rw [encodeFields, show List.lookup name ((name, v) :: fvs) = some v by
        simp [List.lookup]]
      dsimp only
      rw [hskip, hbv, hbody, exCat_ok_ok]
    · rw [decodeFields, List.append_assoc, hdv, bindDec_ok, hdec, mapFst_ok]
  termination_by fs _ _ _ => (sizeOf fs, 0)
  decreasing_by all_goals simp_wf <;> omega

end

/-! ## Claim theorems -/

/-- **C1** (amended).  For every schema and every value the schema
admits — with map/set keys restricted to the hashable kinds (bool,
int, float, str, bytes), since decoding a composite key layout yields
an unhashable list container — decoding the bytes produced by encoding
`v` returns `v` exactly: `decode (encode v) = (v, no bytes left)`. -/
theorem c1_roundtrip (s : Sch) (v : Value) (h : admits s v = true) :
    ∃ bs, encode s v = .ok bs ∧ decode s bs = .ok (v, []) := by
  obtain ⟨bs, h1, h2⟩ := encode_decode s v h []
  exact ⟨bs, h1, by rwa [List.append_nil] at h2⟩

/-- **C1** counterexample.  The claim as stated is false: the schema
`HashMap(TupleStruct(U8), U8)` admits the dict `{(1,): 2}` — encoding
succeeds — but decoding the resulting bytes fails, because the parsed
key is a `ListContainer` (a Python list), which is unhashable, so
`dict(obj)` raises `TypeError`. -/
theorem c1_counterexample :
    encode (.hashMap (.tupleStruct (.cons .u8 .nil)) .u8)
        (.vDict [(.vList [.vInt 1], .vInt 2)]) =
      .ok [1, 0, 0, 0, 1, 2] ∧
    decode (.hashMap (.tupleStruct (.cons .u8 .nil)) .u8)
        [1, 0, 0, 0, 1, 2] = .error .typeErr := by
  constructor
  · simp only [encode, encodeTuple, sortBy, insertSorted, List.map_cons,
      List.map_nil, exJoin, exCat, intBuild, toLE]
    norm_num
    decide
  · simp [decode, decodePairs, decodeTuple, readN, read1, bindDec,
      mapFst, intParse, fromLE, Value.hashable]

/-- **C1** witness: the amended round-trip instantiated at
`Option<u8>` with value `5`. -/
theorem c1_witness :
    ∃ bs, encode (.option .u8) (.vInt 5) = .ok bs ∧
      decode (.option .u8) bs = .ok (.vInt 5, []) :=
  c1_roundtrip (.option .u8) (.vInt 5) (by simp [admits])

/-- **C3**.  For f32 and f64: encoding a NaN bit pattern fails with the
NaN error, and decoding a 4- (resp. 8-) byte pattern whose bits denote
a NaN fails with the NaN error rather than returning a value. -/
theorem c3_nan_rejected :
    (∀ bits, isNan32 bits = true →
      encode .f32 (.vF32 bits) = .error .nan) ∧
    (∀ bs rest, bs.length = 4 → isNan32 (fromLE bs) = true →
      decode .f32 (bs ++ rest) = .error .nan) ∧
    (∀ bits, isNan64 bits = true →
      encode .f64 (.vF64 bits) = .error .nan) ∧
    (∀ bs rest, bs.length = 8 → isNan64 (fromLE bs) = true →
      decode .f64 (bs ++ rest) = .error .nan) := by
  refine ⟨fun bits h => ?_, fun bs rest hlen h => ?_,
    fun bits h => ?_, fun bs rest hlen h => ?_⟩
  · rw [encode, if_pos h]
  · rw [decode, show readN 4 (bs ++ rest) = .ok (bs, rest) by
      rw [← hlen]; exact readN_append bs rest, bindDec_ok, if_pos h]
  · rw [encode, if_pos h]
  · rw [decode, show readN 8 (bs ++ rest) = .ok (bs, rest) by
      rw [← hlen]; exact readN_append bs rest, bindDec_ok, if_pos h]

/-- **C3** witness: the quiet-NaN patterns `0x7FC00000` (f32) and
`0x7FF8000000000000` (f64) are rejected in both directions. -/
theorem c3_witness :
    encode .f32 (.vF32 0x7FC00000) = .error .nan ∧
    decode .f32 ([0x00, 0x00, 0xC0, 0x7F] ++ []) = .error .nan ∧
    encode .f64 (.vF64 0x7FF8000000000000) = .error .nan ∧
    decode .f64 ([0x00, 0x00, 0x00, 0x00, 0x00, 0x00, 0xF8, 0x7F] ++ []) =
      .error .nan :=
  ⟨c3_nan_rejected.1 _ (by decide),
   c3_nan_rejected.2.1 _ [] (by decide) (by decide),
   c3_nan_rejected.2.2.1 _ (by decide),
   c3_nan_rejected.2.2.2 _ [] (by decide) (by decide)⟩

/-- **C4** (amended).  Boolean decode reads exactly one byte; byte
`0x00` decodes to `false` and EVERY nonzero byte decodes to `true`
(construct's `Flag` is `stream_read(...) != b"\x00"`); the only
decode failure is an empty stream. -/
theorem c4_bool_decode :
    (∀ b rest, decode .bool (b :: rest) = .ok (.vBool (b != 0), rest)) ∧
    decode .bool [] = .error .underflow := by
  constructor
  · intro b rest
    rw [decode]
    rfl
  · rw [decode]
    rfl

/-- **C4** counterexample.  The claim says decoding byte `0x02` fails;
in fact it succeeds and returns `true`. -/
theorem c4_counterexample :
    decode .bool [2] = .ok (.vBool true, []) := by
  rw [decode]
  rfl

/-- **C7**.  For every union schema with `N` declared variants and
every stream whose first byte is a discriminant `≥ N`, decode fails
(the Python list indexing raises `IndexError`). -/
theorem c7_discriminant_bound (vs : Variants) (b : Nat) (rest : List Nat)
    (h : vs.length ≤ b) :
    decode (.enum vs) (b :: rest) = .error .indexErr := by
  rw [decode_enum_cons, Variants.get?_eq_none vs b h]

/-- **C7** witness: a 2-variant union rejects discriminant byte 2. -/
theorem c7_witness :
    decode (.enum (.unitV "A" (.unitV "B" .nil))) (2 :: [9]) =
      .error .indexErr :=
  c7_discriminant_bound _ 2 [9] (by decide)

/-- **C9**.  Option decode never rejects a tag byte: `0x00` yields the
absent value, and every nonzero first byte is treated as present, the
remaining bytes being handed to the inner codec unchanged. -/
theorem c9_option_tag (s : Sch) (b : Nat) (rest : List Nat) :
    (b = 0 → decode (.option s) (b :: rest) = .ok (.vNone, rest)) ∧
    (b ≠ 0 → decode (.option s) (b :: rest) = decode s rest) := by
  constructor
  · intro h
    subst h
    rw [decode]
    simp [read1]
  · intro h
    rw [decode]
    rw [show read1 (b :: rest) = .ok (b, rest) from rfl, bindDec_ok,
      if_neg h]

/-- **C9** witness: decoding `[0x02, 0x05]` as `Option<u8>` returns `5`
without error. -/
theorem c9_witness :
    decode (.option .u8) [2, 5] = .ok (.vInt 5, []) := by
  rw [(c9_option_tag .u8 2 [5]).2 (by omega), decode]
  simp [readN, bindDec, intParse, fromLE]

/-- **C6**.  For every admissible tagged-union value, encode writes one
discriminant byte equal to the variant's 0-based declaration index
followed by that variant's payload encoding, and a unit-shaped variant
contributes no payload bytes. -/
theorem c6_enum_encode (vs : Variants) (i : Nat) (p : Value)
    (h : admits (.enum vs) (.vEnum i p) = true) :
    ∃ pb, encode (.enum vs) (.vEnum i p) = .ok (i :: pb) ∧
      (∀ name, vs.get? i = some (.unitS name) → pb = []) := by
  obtain ⟨bs, h1, h2⟩ := encode_decode (.enum vs) (.vEnum i p) h []
  rw [admits_enum] at h
  simp only [Bool.and_eq_true, decide_eq_true_eq] at h
  obtain ⟨hi, hp⟩ := h
  have hbyte : intBuild 1 false (i : Int) = .ok [i] := by
    have key := intBuild_ofNat 1 i (by norm_num; omega)
    rwa [show toLE 1 i = [i] by
      simp only [toLE]
      rw [Nat.mod_eq_of_lt hi]] at key
  cases hshape : vs.get? i with
  | none => rw [hshape] at hp; exact Bool.noConfusion hp
  | some shape =>
    rw [hshape] at hp
    cases shape with
    | unitS name =>
      dsimp only at hp
      rw [decide_eq_true_eq] at hp
      subst hp
      refine ⟨[], ?_, fun _ _ => rfl⟩
      rw [encode_enum_eq, hshape]
      dsimp only
      exact hbyte
    | tupleS name ss =>
      cases p
      case vList xs =>
        dsimp only at hp
        obtain ⟨body, hbody, -⟩ := encode_decode_tuple ss xs hp []
        refine ⟨body, ?_, fun nm hnm => by simp at hnm⟩
        rw [encode_enum_eq, hshape]
        dsimp only
        rw [hbyte, hbody, exCat_ok_ok]
        rfl
      all_goals (dsimp only at hp; exact Bool.noConfusion hp)
    | structS name fs =>
      cases p
      case vRec fields =>
        dsimp only at hp
        cases fields with
        | nil =>
          refine ⟨[], ?_, fun _ _ => rfl⟩
          rw [encode_enum_eq, hshape]
          dsimp only
          exact hbyte
        | cons f fvs =>
          obtain ⟨body, hbody, -⟩ := encode_decode_fields fs (f :: fvs) hp []
          refine ⟨body, ?_, fun nm hnm => by simp at hnm⟩
          rw [encode_enum_eq, hshape]
          dsimp only
          rw [hbyte, hbody, exCat_ok_ok]
          rfl
      all_goals (dsimp only at hp; exact Bool.noConfusion hp)

/-- **C6** witness: a 3-variant union whose variant index 1 is
unit-shaped encodes that variant to exactly the single byte `0x01`. -/
theorem c6_witness :
    ∃ pb, encode (.enum (.unitV "A" (.unitV "B" (.unitV "C" .nil))))
        (.vEnum 1 .vNone) = .ok (1 :: pb) ∧
      (∀ name, (Variants.unitV "A" (.unitV "B" (.unitV "C" .nil))).get? 1 =
        some (.unitS name) → pb = []) :=
  c6_enum_encode _ 1 _ (by rw [admits_enum]; simp [Variants.get?])

/-! ## C2: collection ordering -/

/-- Prepend a byte string to a fallible list of byte strings. -/
def consL (bs : List Nat) : Except Err (List (List Nat)) →
    Except Err (List (List Nat))
  | .ok rest => .ok (bs :: rest)
  | .error e => .error e

/-- Collect a list of fallible byte strings, failing left-to-right. -/
def exSequence : List (Except Err (List Nat)) → Except Err (List (List Nat))
  | [] => .ok []
  | .ok bs :: rest => consL bs (exSequence rest)
  | .error e :: _ => .error e

/-- Modelled from the spec (§4.4 Encode), for comparison with the
implementation: "produce each entry's encoded bytes (key‖value for
maps), sort entries ascending by those *encoded* byte strings
(lexicographic), then emit as a length-prefixed vector of the sorted
entries."  This is what the spec says the encoder does — not what
`borsh.py` does. -/
def specMapEncode (k v : Sch) (entries : List (Value × Value)) :
    Except Err (List Nat) :=
  match exSequence
      (entries.map (fun p => exCat (encode k p.1) (encode v p.2))) with
  | .error e => .error e
  | .ok entryBytes =>
    exCat (intBuild 4 false entryBytes.length)
      (.ok (sortBy lexLt entryBytes).flatten)

/-- **C2** counterexample.  For the map `{"aa": 1, "b": 2}` the
implementation (`sorted(obj.items())`, i.e. Python host order, where
`"aa" < "b"`) emits the `"aa"` entry first, while the spec's
encoded-byte ordering puts the `"b"` entry first (its length-prefix
byte `1` sorts below `"aa"`'s `2`), so the claimed output ordering is
not what the code produces. -/
theorem c2_counterexample :
    encode (.hashMap .str .u8)
        (.vDict [(.vStr [97, 97], .vInt 1), (.vStr [98], .vInt 2)]) =
      .ok [2, 0, 0, 0, 2, 0, 0, 0, 97, 97, 1, 1, 0, 0, 0, 98, 2] ∧
    specMapEncode .str .u8
        [(.vStr [97, 97], .vInt 1), (.vStr [98], .vInt 2)] =
      .ok [2, 0, 0, 0, 1, 0, 0, 0, 98, 2, 2, 0, 0, 0, 97, 97, 1] ∧
    ([2, 0, 0, 0, 2, 0, 0, 0, 97, 97, 1, 1, 0, 0, 0, 98, 2] : List Nat) ≠
      [2, 0, 0, 0, 1, 0, 0, 0, 98, 2, 2, 0, 0, 0, 97, 97, 1] := by
  refine ⟨?_, ?_, by decide⟩
  · simp [encode, sortBy, insertSorted, pairLt, pyLt, lexLt, exJoin,
      exCat, intBuild, toLE, utf8Encode, utf8EncodeChar, validScalar]
  · simp [specMapEncode, encode, exSequence, consL, sortBy, insertSorted,
      lexLt, exJoin, exCat, intBuild, toLE, utf8Encode, utf8EncodeChar,
      validScalar]

/-- **C2** (amended).  For every map (and every set), the encoded
output is a u32-LE count followed by the entries' encodings in
ascending *host-value* order — Python `<` on the decoded `(key, value)`
pairs for maps and on the elements for sets — regardless of the host
container's insertion or iteration order (any permutation of the
canonical entry list encodes identically).  Ordering by the encoded
byte strings, as the claim stated, is refuted by
`c2_counterexample`. -/
theorem c2_canonical_order :
    (∀ (k v : Sch) (p m : List (Value × Value)), List.Perm p m →
      admits (.hashMap k v) (.vDict m) = true →
      ∃ body,
        exJoin (m.map (fun q => exCat (encode k q.1) (encode v q.2))) =
          .ok body ∧
        encode (.hashMap k v) (.vDict p) = .ok (toLE 4 m.length ++ body) ∧
        List.Pairwise (fun a b => pyLt a.1 b.1 = true) m) ∧
    (∀ (s : Sch) (p m : List Value), List.Perm p m →
      admits (.hashSet s) (.vSet m) = true →
      ∃ body, exJoin (m.map (fun x => encode s x)) = .ok body ∧
        encode (.hashSet s) (.vSet p) = .ok (toLE 4 m.length ++ body) ∧
        List.Pairwise (fun a b => pyLt a b = true) m) := by
  constructor
  · intro k v p m hperm hm
    rw [admits] at hm
    simp only [Bool.and_eq_true, decide_eq_true_eq, List.all_eq_true]
      at hm
    obtain ⟨⟨hlen, hsorted⟩, hall⟩ := hm
    have hsort : sortBy pairLt p = m :=
      sortBy_eq_of_perm pairLt pairLt_asymm pairLt_trans p m hperm
        (pairwise_keyLt_pairLt m hsorted)
    obtain ⟨body, hbody, -⟩ := encode_decode_pairs k v m
      (fun q hq => ⟨(hall q hq).1.1, (hall q hq).2⟩) []
    refine ⟨body, hbody, ?_, by rw [pairwiseB_iff] at hsorted; exact hsorted⟩
    rw [encode, hsort, intBuild_ofNat 4 m.length (by norm_num; omega),
      hbody, exCat_ok_ok]
  · intro s p m hperm hm
    rw [admits] at hm
    simp only [Bool.and_eq_true, decide_eq_true_eq, List.all_eq_true]
      at hm
    obtain ⟨⟨hlen, hsorted⟩, hall⟩ := hm
    have hsort : sortBy pyLt p = m :=
      sortBy_eq_of_perm pyLt pyLt_asymm pyLt_trans p m hperm
        (by rw [pairwiseB_iff] at hsorted; exact hsorted)
    obtain ⟨body, hbody, -⟩ := encode_decode_count s m
      (fun x hx => (hall x hx).1) []
    refine ⟨body, hbody, ?_, by rw [pairwiseB_iff] at hsorted; exact hsorted⟩
    rw [encode, hsort, intBuild_ofNat 4 m.length (by norm_num; omega),
      hbody, exCat_ok_ok]

/-- **C2** witness: `Map{"b": 1, "a": 2}` (string keys, u8 values)
encodes with key `"a"` first even when `"b"` was inserted first. -/
theorem c2_witness :
    ∃ body,
      exJoin ([((Value.vStr [97]), Value.vInt 2),
          ((Value.vStr [98]), Value.vInt 1)].map
        (fun q => exCat (encode .str q.1) (encode .u8 q.2))) = .ok body ∧
      encode (.hashMap .str .u8)
          (.vDict [((.vStr [98]), .vInt 1), ((.vStr [97]), .vInt 2)]) =
        .ok (toLE 4 2 ++ body) ∧
      List.Pairwise (fun a b => pyLt a.1 b.1 = true)
        [((Value.vStr [97]), Value.vInt 2), ((Value.vStr [98]), Value.vInt 1)] :=
  c2_canonical_order.1 .str .u8 _ _ (List.Perm.swap _ _ _)
    (by simp [admits, pairwiseB, pyLt, lexLt, Value.hashable, validScalar,
      utf8Encode, utf8EncodeChar])

/-! ## C5: the size probe `_calc_bytes_to_read` -/

/-- The `aux` component returned by `_calc_bytes_to_read`: Python
`None`, a constructed unit-variant instance (`subcon.enum.getitem(index)()`),
or the raw index. -/
inductive Aux where
  | none
  | enumUnit (i : Nat)
  | idx (i : Nat)
  deriving DecidableEq, Repr

/-- The dynamically-typed `bytes_to_read` value: an `int`, or — in the
`Option`-present and `Enum`-non-unit branches, where the source assigns
the whole recursive `(bytes_to_read, aux)` tuple to the variable
without destructuring it — a nested tuple. -/
inductive Btr where
  | n (k : Nat)
  | tup (b : Btr) (a : Aux)
  deriving DecidableEq, Repr

/-- Wrap a recursive probe result as the nested tuple the source
produces (`bytes_to_read = _calc_bytes_to_read(...)` with no `[0]`). -/
def tuplify (a : Aux) : Except Err ((Btr × Aux) × List Nat) →
    Except Err ((Btr × Aux) × List Nat)
  | .ok (r, rest) => .ok ((.tup r.1 r.2, a), rest)
  | .error e => .error e

theorem read1_length {stream : List Nat} {d : Nat} {rest : List Nat}
    (h : read1 stream = .ok (d, rest)) : rest.length < stream.length := by
  cases stream with
  | nil => cases h
  | cons b bs =>
    rw [read1] at h
    cases h
    simp

/-- `_calc_bytes_to_read(stream, path, subcon)`: try `subcon.sizeof()`;
on `SizeofError`, peek one byte and recurse.  Translated faithfully
from the source, including its self-recursion on the `Option` subcon
itself (not the wrapped subcon) and the un-destructured tuple results
in the `Option`-present and `Enum`-non-unit branches. -/
def calcBytesToRead (s : Sch) (stream : List Nat) :
    Except Err ((Btr × Aux) × List Nat) :=
  match s.sizeof? with
  | some k => .ok ((.n k, .none), stream)
  | none =>
    match s with
    | .option _ =>
      match h : read1 stream with
      | .error e => .error e
      | .ok (d, rest) =>
        if d = 0 then .ok ((.n 0, .none), rest)
        else tuplify .none (calcBytesToRead s rest)
    | .enum vs =>
      match h : read1 stream with
      | .error e => .error e
      | .ok (i, rest) =>
        match vs.get? i with
        | Option.none => .error .indexErr
        | some (.unitS _) => .ok ((.n 0, .enumUnit i), rest)
        | some (.tupleS _ ss) =>
          tuplify (.idx i) (calcBytesToRead (.tupleStruct ss) rest)
        | some (.structS _ fs) =>
          tuplify (.idx i) (calcBytesToRead (.cStruct fs) rest)
    | _ => .error .unexpectedType
  termination_by stream.length
  decreasing_by
    all_goals (have hlen := read1_length h; omega)

/-- **C5**: evaluating the size probe at the failing input.  On
`Option<u8>` with stream `[0x01, 0x05]` (a present `5`, whose probe the
claim says returns `2 = 1 + 1`), the probe raises a stream-underflow
error: having consumed the `0x01` tag it recurses on the `Option`
subcon itself, consumes `0x05` as a second tag, and then attempts to
read a tag from the exhausted stream.  On the absent input `[0x00]` it
returns byte count `0` (not the claimed size `1`): the tag byte is
consumed from the stream and not counted. -/
theorem c5_probe_eval :
    calcBytesToRead (.option .u8) [1, 5] = .error .underflow ∧
    calcBytesToRead (.option .u8) [0] = .ok ((.n 0, .none), []) := by
  constructor
  · rw [calcBytesToRead]
    simp only [Sch.sizeof?, read1]
    norm_num
    rw [calcBytesToRead]
    simp only [Sch.sizeof?, read1]
    norm_num
    rw [calcBytesToRead]
    simp only [Sch.sizeof?, read1]
    rfl
  · rw [calcBytesToRead]
    simp only [Sch.sizeof?, read1]
    norm_num

/-! ## C8: schema construction (`_make_enum` and its checks) -/

/-- The reserved internal payload-wrapper name. -/
def TUPLE_DATA : String := "tuple_data"

/-- A field of a raw `CStruct` variant: the subcon's name (a `Renamed`
construct has one, a bare construct has `None`) and its schema. -/
structure RawField where
  name : Option String
  sch : Sch

/-- A raw argument to `Enum(*variants)`: a plain string (unit
variant), a possibly-renamed `TupleStruct`, a possibly-renamed
`CStruct`, or a construct of any other type. -/
inductive RawVariant where
  | str (name : String)
  | tup (name : Option String) (ss : SchList)
  | cstructV (name : Option String) (fields : List RawField)
  | other (name : Option String)

/-- The payload shape recorded on the generated `EnumDef` class:
`unit_struct()`, `tuple_struct()` or `clike_struct(*names)`. -/
inductive PayloadShape where
  | unitP
  | tupleP
  | structP (fieldNames : List String)
  deriving DecidableEq, Repr

/-- `_check_name_not_null`. -/
def _check_name_not_null : Option String → Except Err String
  | Option.none => .error .unnamedField
  | some s => .ok s

/-- `_check_variant_name` (its name notwithstanding, the source applies
it only to *field* names inside a `CStruct` variant): rejects `None`,
the reserved name `tuple_data`, and names starting with `"_"`;
`name[0]` on the empty string raises `IndexError`.  The
`isinstance(name, str)` branch cannot fire in this model, where a
present name is always a string. -/
def _check_variant_name (name : Option String) : Except Err String :=
  match _check_name_not_null name with
  | .error e => .error e
  | .ok s =>
    if s = TUPLE_DATA then .error .reservedName
    else
      match s.toList with
      | [] => .error .indexErr
      | c :: _ => if c = '_' then .error .underscoreName else .ok s

/-- Prepend a checked name to a fallible name list. -/
def consS (s : String) : Except Err (List String) → Except Err (List String)
  | .ok rest => .ok (s :: rest)
  | .error e => .error e

/-- `_handle_cstruct_variant`: check every field name in order,
collecting them. -/
def _handle_cstruct_variant : List RawField → Except Err (List String)
  | [] => .ok []
  | f :: rest =>
    match _check_variant_name f.name with
    | .error e => .error e
    | .ok s => consS s (_handle_cstruct_variant rest)

/-- `_handle_struct_variant`: reject an unnamed variant, then dispatch
on the construct's type.  Note the variant's own name is never checked
against the reserved name or prefix.  (The `.str` case is unreachable:
`_make_enum` dispatches plain strings before calling this.) -/
def _handle_struct_variant : RawVariant → Except Err (String × PayloadShape)
  | .str _ => .error .unexpectedType
  | .tup name _ =>
    match name with
    | Option.none => .error .unnamedVariant
    | some s => .ok (s, .tupleP)
  | .cstructV name fields =>
    match name with
    | Option.none => .error .unnamedVariant
    | some s =>
      match _handle_cstruct_variant fields with
      | .error e => .error e
      | .ok names => .ok (s, .structP names)
  | .other name =>
    match name with
    | Option.none => .error .unnamedVariant
    | some _ => .error .unrecognizedVariant

/-- Prepend a constructed variant to a fallible variant list. -/
def consP (p : String × PayloadShape) :
    Except Err (List (String × PayloadShape)) →
      Except Err (List (String × PayloadShape))
  | .ok rest => .ok (p :: rest)
  | .error e => .error e

/-- `_make_enum(*variants)`: a plain string becomes a unit variant with
no checks at all; anything else goes through
`_handle_struct_variant`. -/
def _make_enum : List RawVariant → Except Err (List (String × PayloadShape))
  | [] => .ok []
  | .str s :: rest => consP (s, .unitP) (_make_enum rest)
  | v :: rest =>
    match _handle_struct_variant v with
    | .error e => .error e
    | .ok p => consP p (_make_enum rest)

/-- Validity of a field name per the source's checks. -/
def fieldNameOk : Option String → Bool
  | Option.none => false
  | some s =>
    decide (s ≠ TUPLE_DATA) &&
    match s.toList with
    | [] => false
    | c :: _ => decide (c ≠ '_')

/-- Validity of one raw variant per the source's checks: unit (string)
variants are always accepted, tuple/struct/other variants need a name,
struct variants need all field names valid, unrecognized construct
types are rejected. -/
def rawVariantOk : RawVariant → Bool
  | .str _ => true
  | .tup name _ => name.isSome
  | .cstructV name fields =>
    name.isSome && fields.all (fun f => fieldNameOk f.name)
  | .other _ => false

theorem check_variant_name_ok (name : Option String)
    (h : fieldNameOk name = true) :
    ∃ s, name = some s ∧ _check_variant_name name = .ok s := by
  cases name with
  | none => cases h
  | some s =>
    refine ⟨s, rfl, ?_⟩
    rw [fieldNameOk] at h
    simp only [Bool.and_eq_true, decide_eq_true_eq] at h
    obtain ⟨h1, h2⟩ := h
    rw [_check_variant_name, _check_name_not_null]
    dsimp only
    rw [if_neg h1]
    cases hcs : s.toList with
    | nil => rw [hcs] at h2; simp at h2
    | cons c cs =>
      rw [hcs] at h2
      simp only [decide_eq_true_eq] at h2
      dsimp only
      rw [if_neg h2]

theorem check_variant_name_err (name : Option String)
    (h : fieldNameOk name = false) :
    ∃ e, _check_variant_name name = .error e := by
  cases name with
  | none => exact ⟨.unnamedField, rfl⟩
  | some s =>
    rw [fieldNameOk] at h
    rw [_check_variant_name, _check_name_not_null]
    dsimp only
    by_cases h1 : s = TUPLE_DATA
    · rw [if_pos h1]
      exact ⟨_, rfl⟩
    · rw [if_neg h1]
      simp only [Bool.and_eq_false_iff, decide_eq_false_iff_not, not_not]
        at h
      cases hcs : s.toList with
      | nil => exact ⟨_, rfl⟩
      | cons c cs =>
        rw [hcs] at h
        dsimp only
        rcases h with h | h
        · exact absurd h h1
        · simp only [decide_eq_false_iff_not, not_not] at h
          rw [if_pos h]
          exact ⟨_, rfl⟩

theorem handle_cstruct_ok (fields : List RawField)
    (h : ∀ f ∈ fields, fieldNameOk f.name = true) :
    ∃ names, _handle_cstruct_variant fields = .ok names := by
  induction fields with
  | nil => exact ⟨[], rfl⟩
  | cons f rest ih =>
    obtain ⟨s, -, hck⟩ :=
      check_variant_name_ok f.name (h f (List.mem_cons_self _ _))
    obtain ⟨names, hnames⟩ := ih (fun g hg => h g (List.mem_cons_of_mem _ hg))
    refine ⟨s :: names, ?_⟩
    rw [_handle_cstruct_variant, hck]
    dsimp only
    rw [hnames]
    rfl

theorem handle_cstruct_err (fields : List RawField) (f : RawField)
    (hf : f ∈ fields) (h : fieldNameOk f.name = false) :
    ∃ e, _handle_cstruct_variant fields = .error e := by
  induction fields with
  | nil => cases hf
  | cons g rest ih =>
    rw [_handle_cstruct_variant]
    cases hck : _check_variant_name g.name with
    | error e => exact ⟨e, rfl⟩
    | ok s =>
      rcases List.mem_cons.mp hf with rfl | hf'
      · obtain ⟨e, he⟩ := check_variant_name_err f.name h
        rw [he] at hck
        cases hck
      · obtain ⟨e, he⟩ := ih hf'
        refine ⟨e, ?_⟩
        dsimp only
        rw [he]
        rfl

/-- **C8** counterexample.  The claim says construction fails whenever
a field *or variant* name equals the reserved payload-wrapper name or
begins with the reserved prefix; but a plain-string (unit) variant
name is never checked, so `Enum("tuple_data")` and `Enum("_x")` both
construct successfully. -/
theorem c8_counterexample :
    _make_enum [.str "tuple_data"] = .ok [("tuple_data", .unitP)] ∧
    _make_enum [.str "_x"] = .ok [("_x", .unitP)] := by
  constructor <;> rfl

/-- **C8** (amended).  Union-schema construction fails (with a
Python-level error raised at construction time, never during
encode/decode) exactly on the checks the source performs: a non-unit
variant with no name, a named-fields variant containing an unnamed
field or a field named `tuple_data` or starting with `_` (or empty,
which raises `IndexError`), or a variant of unrecognized construct
type.  Variant names themselves — including plain-string unit
variants — are *not* checked against the reserved name or prefix, and
construction succeeds whenever every variant passes the source's
checks. -/
theorem make_enum_cons_handle_ok {v : RawVariant} {p : String × PayloadShape}
    (hne : ∀ s, v ≠ .str s) (hh : _handle_struct_variant v = .ok p)
    (rest : List RawVariant) :
    _make_enum (v :: rest) = consP p (_make_enum rest) := by
  cases v with
  | str s => exact absurd rfl (hne s)
  | tup name ss =>
    rw [_make_enum] <;> try (intro s2 h2; cases h2)
    rw [hh]
  | cstructV name fields =>
    rw [_make_enum] <;> try (intro s2 h2; cases h2)
    rw [hh]
  | other name =>
    rw [_make_enum] <;> try (intro s2 h2; cases h2)
    rw [hh]

theorem make_enum_cons_handle_err {v : RawVariant} {e : Err}
    (hne : ∀ s, v ≠ .str s) (hh : _handle_struct_variant v = .error e)
    (rest : List RawVariant) :
    _make_enum (v :: rest) = .error e := by
  cases v with
  | str s => exact absurd rfl (hne s)
  | tup name ss =>
    rw [_make_enum] <;> try (intro s2 h2; cases h2)
    rw [hh]
  | cstructV name fields =>
    rw [_make_enum] <;> try (intro s2 h2; cases h2)
    rw [hh]
  | other name =>
    rw [_make_enum] <;> try (intro s2 h2; cases h2)
    rw [hh]

theorem c8_construction :
    (∀ l : List RawVariant, (∀ v ∈ l, rawVariantOk v = true) →
      ∃ r, _make_enum l = .ok r) ∧
    (∀ (l : List RawVariant) (v : RawVariant), v ∈ l →
      rawVariantOk v = false → ∃ e, _make_enum l = .error e) := by
  constructor
  · intro l h
    induction l with
    | nil => exact ⟨[], rfl⟩
    | cons v rest ih =>
      obtain ⟨r, hr⟩ := ih (fun w hw => h w (List.mem_cons_of_mem _ hw))
      have hv := h v (List.mem_cons_self _ _)
      cases v with
      | str s =>
        refine ⟨(s, .unitP) :: r, ?_⟩
        rw [_make_enum, hr]
        rfl
      | tup name ss =>
        rw [rawVariantOk, Option.isSome_iff_exists] at hv
        obtain ⟨s, rfl⟩ := hv
        refine ⟨(s, .tupleP) :: r, ?_⟩
        rw [make_enum_cons_handle_ok (fun _ h2 => RawVariant.noConfusion h2)
          (by rw [_handle_struct_variant]) rest, hr]
        rfl
      | cstructV name fields =>
        rw [rawVariantOk] at hv
        simp only [Bool.and_eq_true, Option.isSome_iff_exists,
          List.all_eq_true] at hv
        obtain ⟨⟨s, rfl⟩, hfields⟩ := hv
        obtain ⟨names, hnames⟩ := handle_cstruct_ok fields hfields
        refine ⟨(s, .structP names) :: r, ?_⟩
        rw [make_enum_cons_handle_ok (fun _ h2 => RawVariant.noConfusion h2)
          (by rw [_handle_struct_variant, hnames]) rest, hr]
        rfl
      | other name => cases hv
  · intro l v hv hbad
    induction l with
    | nil => cases hv
    | cons w rest ih =>
      rcases List.mem_cons.mp hv with rfl | hv'
      · cases v with
        | str s => rw [rawVariantOk] at hbad; cases hbad
        | tup name ss =>
          cases name with
          | none =>
            exact ⟨.unnamedVariant, make_enum_cons_handle_err
              (fun _ h2 => RawVariant.noConfusion h2)
              (by rw [_handle_struct_variant]) rest⟩
          | some s => rw [rawVariantOk] at hbad; simp at hbad
        | cstructV name fields =>
          cases name with
          | none =>
            exact ⟨.unnamedVariant, make_enum_cons_handle_err
              (fun _ h2 => RawVariant.noConfusion h2)
              (by rw [_handle_struct_variant]) rest⟩
          | some s =>
            rw [rawVariantOk] at hbad
            simp only [Bool.and_eq_false_iff, List.all_eq_false] at hbad
            rcases hbad with hbad | ⟨f, hf, hfbad⟩
            · simp at hbad
            · obtain ⟨e, he⟩ := handle_cstruct_err fields f hf
                (by simpa using hfbad)
              exact ⟨e, make_enum_cons_handle_err
                (fun _ h2 => RawVariant.noConfusion h2)
                (by rw [_handle_struct_variant, he]) rest⟩
        | other name =>
          cases name with
          | none =>
            exact ⟨.unnamedVariant, make_enum_cons_handle_err
              (fun _ h2 => RawVariant.noConfusion h2)
              (by rw [_handle_struct_variant]) rest⟩
          | some s =>
            exact ⟨.unrecognizedVariant, make_enum_cons_handle_err
              (fun _ h2 => RawVariant.noConfusion h2)
              (by rw [_handle_struct_variant]) rest⟩
      · obtain ⟨e, he⟩ := ih hv'
        cases w with
        | str s =>
          refine ⟨e, ?_⟩
          rw [_make_enum, he]
          rfl
        | tup name ss =>
          cases hh : _handle_struct_variant (.tup name ss) with
          | error e2 =>
            exact ⟨e2, make_enum_cons_handle_err
              (fun _ h2 => RawVariant.noConfusion h2) hh rest⟩
          | ok p =>
            refine ⟨e, ?_⟩
            rw [make_enum_cons_handle_ok
              (fun _ h2 => RawVariant.noConfusion h2) hh rest, he]
            rfl
        | cstructV name fields =>
          cases hh : _handle_struct_variant (.cstructV name fields) with
          | error e2 =>
            exact ⟨e2, make_enum_cons_handle_err
              (fun _ h2 => RawVariant.noConfusion h2) hh rest⟩
          | ok p =>
            refine ⟨e, ?_⟩
            rw [make_enum_cons_handle_ok
              (fun _ h2 => RawVariant.noConfusion h2) hh rest, he]
            rfl
        | other name =>
          cases hh : _handle_struct_variant (.other name) with
          | error e2 =>
            exact ⟨e2, make_enum_cons_handle_err
              (fun _ h2 => RawVariant.noConfusion h2) hh rest⟩
          | ok p =>
            refine ⟨e, ?_⟩
            rw [make_enum_cons_handle_ok
              (fun _ h2 => RawVariant.noConfusion h2) hh rest, he]
            rfl

/-- **C8** witness: a unit variant plus a validly-named struct variant
construct successfully; a struct variant with a field named
`tuple_data` fails at construction. -/
theorem c8_witness :
    (∃ r, _make_enum
      [.str "A", .cstructV (some "B") [⟨some "x", .u8⟩]] = .ok r) ∧
    (∃ e, _make_enum
      [.cstructV (some "B") [⟨some "tuple_data", .u8⟩]] = .error e) :=
  ⟨c8_construction.1 _ (by
      intro v hv
      rcases List.mem_cons.mp hv with rfl | hv
      · rfl
      · rcases List.mem_cons.mp hv with rfl | hv
        · decide
        · cases hv),
   c8_construction.2 _ _ (List.mem_cons_self _ _) (by decide)⟩

/-!  ## C10: the accounts coder (`src/anchorpy/coder/accounts.py`)

`account_discriminator(name)` is `sha256(f"account:{name}".encode()).digest()[:8]`.
We embed SHA-256 (FIPS 180-4) structurally over byte lists so the kernel can
evaluate it.  Words are `Nat` reduced `% 2 ^ 32` wherever overflow matters. -/

/-- Right-rotate a 32-bit word (value assumed `< 2 ^ 32`). -/
def rotr (n x : Nat) : Nat := x / 2 ^ n + x % 2 ^ n * 2 ^ (32 - n)

/-- Logical right shift. -/
def shr (n x : Nat) : Nat := x / 2 ^ n

/-- SHA-256 `Ch`: the complement of `x` is taken within 32 bits. -/
def ch (x y z : Nat) : Nat := (x &&& y) ^^^ ((2 ^ 32 - 1 - x) &&& z)

/-- SHA-256 `Maj`. -/
def maj (x y z : Nat) : Nat := (x &&& y) ^^^ (x &&& z) ^^^ (y &&& z)

/-- SHA-256 `Σ0`. -/
def bigSigma0 (x : Nat) : Nat := rotr 2 x ^^^ rotr 13 x ^^^ rotr 22 x

/-- SHA-256 `Σ1`. -/
def bigSigma1 (x : Nat) : Nat := rotr 6 x ^^^ rotr 11 x ^^^ rotr 25 x

/-- SHA-256 `σ0`. -/
def smallSigma0 (x : Nat) : Nat := rotr 7 x ^^^ rotr 18 x ^^^ shr 3 x

/-- SHA-256 `σ1`. -/
def smallSigma1 (x : Nat) : Nat := rotr 17 x ^^^ rotr 19 x ^^^ shr 10 x

/-- The 64 SHA-256 round constants. -/
def sha256K : List Nat :=
  [1116352408, 1899447441, 3049323471, 3921009573,
   961987163, 1508970993, 2453635748, 2870763221,
   3624381080, 310598401, 607225278, 1426881987,
   1925078388, 2162078206, 2614888103, 3248222580,
   3835390401, 4022224774, 264347078, 604807628,
   770255983, 1249150122, 1555081692, 1996064986,
   2554220882, 2821834349, 2952996808, 3210313671,
   3336571891, 3584528711, 113926993, 338241895,
   666307205, 773529912, 1294757372, 1396182291,
   1695183700, 1986661051, 2177026350, 2456956037,
   2730485921, 2820302411, 3259730800, 3345764771,
   3516065817, 3600352804, 4094571909, 275423344,
   430227734, 506948616, 659060556, 883997877,
   958139571, 1322822218, 1537002063, 1747873779,
   1955562222, 2024104815, 2227730452, 2361852424,
   2428436474, 2756734187, 3204031479, 3329325298]

/-- The SHA-256 initial hash state. -/
def sha256H0 : List Nat :=
  [1779033703, 3144134277, 1013904242, 2773480762,
   1359893119, 2600822924, 528734635, 1541459225]

/-- SHA-256 padding: append `0x80`, zero bytes to 56 mod 64, then the
message bit length as 8 big-endian bytes. -/
def padMessage (msg : List Nat) : List Nat :=
  msg ++ 0x80 :: List.replicate ((64 + 55 - msg.length % 64) % 64) 0 ++
    (toLE 8 (8 * msg.length)).reverse

/-- Group bytes into big-endian 32-bit words. -/
def toWords : List Nat → List Nat
  | b0 :: b1 :: b2 :: b3 :: rest =>
    (b0 * 2 ^ 24 + b1 * 2 ^ 16 + b2 * 2 ^ 8 + b3) :: toWords rest
  | _ => []

/-- Message-schedule extension: append `n` further words `W[t]` from
`σ1(W[t-2]) + W[t-7] + σ0(W[t-15]) + W[t-16]`. -/
def extendWords : Nat → List Nat → List Nat
  | 0, ws => ws
  | n + 1, ws =>
    extendWords n (ws ++
      [(smallSigma1 (ws.getD (ws.length - 2) 0) + ws.getD (ws.length - 7) 0 +
        smallSigma0 (ws.getD (ws.length - 15) 0) +
        ws.getD (ws.length - 16) 0) % 2 ^ 32])

/-- One SHA-256 round on the 8-word state, with `kw = K[t] + W[t]`. -/
def sha256Round (st : List Nat) (kw : Nat) : List Nat :=
  match st with
  | [a, b, c, d, e, f, g, h] =>
    let t1 := (h + bigSigma1 e + ch e f g + kw) % 2 ^ 32
    let t2 := (bigSigma0 a + maj a b c) % 2 ^ 32
    [(t1 + t2) % 2 ^ 32, a, b, c, (d + t1) % 2 ^ 32, e, f, g]
  | other => other

/-- Run all rounds over the list of `K[t] + W[t]` values. -/
def sha256Rounds : List Nat → List Nat → List Nat
  | [], st => st
  | kw :: rest, st => sha256Rounds rest (sha256Round st kw)

/-- Compress one 16-word block into the running hash state. -/
def compressWords (h ws16 : List Nat) : List Nat :=
  let ws := extendWords 48 ws16
  let st := sha256Rounds (List.zipWith (fun k w => (k + w) % 2 ^ 32) sha256K ws) h
  List.zipWith (fun x y => (x + y) % 2 ^ 32) h st

/-- Fold the compression function over the 16-word blocks of the padded
message. -/
def blocksLoop (h : List Nat) : List Nat → List Nat
  | w0 :: w1 :: w2 :: w3 :: w4 :: w5 :: w6 :: w7 :: w8 :: w9 :: w10 :: w11 ::
      w12 :: w13 :: w14 :: w15 :: rest =>
    blocksLoop (compressWords h
      [w0, w1, w2, w3, w4, w5, w6, w7, w8, w9, w10, w11, w12, w13, w14, w15])
      rest
  | _ => h

/-- SHA-256 of a byte list, as the 32-byte big-endian digest. -/
def sha256 (msg : List Nat) : List Nat :=
  ((blocksLoop sha256H0 (toWords (padMessage msg))).map
    (fun w => (toLE 4 w).reverse)).flatten

/-- SHA-256 of `"abc"` agrees with the FIPS 180-4 reference digest
`ba7816bf 8f01cfea 414140de 5dae2223 b00361a3 96177a9c b410ff61 f20015ad`,
validating the embedded constants and padding. -/
theorem sha256_abc :
    sha256 [97, 98, 99] =
      [186, 120, 22, 191, 143, 1, 207, 234,
       65, 65, 64, 222, 93, 174, 34, 35,
       176, 3, 97, 163, 150, 23, 122, 156,
       180, 16, 255, 97, 242, 0, 21, 173] := by
  set_option maxRecDepth 4000 in decide

/-- The code points of the string `"account:"`, the prefix hashed by
`account_discriminator`. -/
def accountColonPrefix : List Nat := [97, 99, 99, 111, 117, 110, 116, 58]

/-- `account_discriminator(name)` from `accounts.py` line 41: the first 8
bytes of the SHA-256 digest of the UTF-8 encoding of `"account:" + name`.
The account name is given as its list of code points. -/
def account_discriminator (name : List Nat) : List Nat :=
  (sha256 (utf8Encode (accountColonPrefix ++ name))).take 8

/-- The `discriminator_to_typedef_layout` / `discriminator_to_acc_name`
dictionaries of `AccountsCoder.__init__`, fused: both are comprehensions
over the same `(name, discriminator)` pairs, so a duplicate discriminator
keeps the *last* account declaring it (Python dict semantics), and the
name and layout found always come from the same account.  `idl.accounts`
is modelled as an association list of (name code points, layout); the
layout produced by `typedef_layout` (defined in `anchorpy.coder.idl`,
which is not part of the sources under review) is taken as given. -/
def discLookup (accounts : List (List Nat × Sch)) (disc : List Nat) :
    Option (List Nat × Sch) :=
  accounts.reverse.find? (fun a => account_discriminator a.1 == disc)

/-- `AccountsCoder.build`: `_encode` looks the name up in
`acc_name_to_discriminator` (`KeyError` if absent; a duplicate name keeps
the last entry, whose discriminator is `account_discriminator name`
either way), then the `Sequence` subcon writes the discriminator through
`Bytes(8)` (which checks the length) and routes the payload through the
`Switch` on the discriminator — a missing `Switch` key is `Pass`, which
writes nothing. -/
def accEncode (accounts : List (List Nat × Sch)) (name : List Nat)
    (data : Value) : Except Err (List Nat) :=
  match accounts.reverse.find? (fun a => a.1 == name) with
  | none => .error .keyErr
  | some _ =>
    let disc := account_discriminator name
    if disc.length = 8 then
      match discLookup accounts disc with
      | none => .ok disc
      | some (_, layout) =>
        match encode layout data with
        | .error e => .error e
        | .ok payload => .ok (disc ++ payload)
    else .error .lenMismatch

/-- `AccountsCoder.parse`: the `Sequence` reads 8 raw bytes, the `Switch`
parses the payload with the layout registered for that discriminator
(`Pass`, parsing nothing, if unknown), and `_decode` maps the
discriminator back to the account name — raising `KeyError` for an
unknown discriminator. -/
def accDecode (accounts : List (List Nat × Sch)) (stream : List Nat) :
    Except Err ((List Nat × Value) × List Nat) :=
  match readN 8 stream with
  | .error e => .error e
  | .ok (disc, rest) =>
    match discLookup accounts disc with
    | none => .error .keyErr
    | some (name, layout) =>
      match decode layout rest with
      | .error e => .error e
      | .ok (v, rest2) => .ok ((name, v), rest2)

/-- **C10**.  For every account name declared in the schema, the coder's
8-byte discriminator equals the first 8 bytes of SHA-256 of
`"account:" ++ name`; encoding prepends exactly that discriminator
before the payload produced by the account's layout, and decoding a
stream that begins with a known discriminator returns the matching
account name together with the payload decoded by that account's
layout, leaving the trailing bytes. -/
theorem c10_accounts_coder
    (accounts : List (List Nat × Sch)) (name : List Nat) (layout : Sch)
    (entry : List Nat × Sch) (data : Value) (payload rest : List Nat)
    (hname : accounts.reverse.find? (fun a => a.1 == name) = some entry)
    (hdisc : discLookup accounts (account_discriminator name) =
      some (name, layout))
    (hlen : (account_discriminator name).length = 8)
    (henc : encode layout data = .ok payload)
    (hdec : decode layout (payload ++ rest) = .ok (data, rest)) :
    account_discriminator name =
      (sha256 (utf8Encode (accountColonPrefix ++ name))).take 8 ∧
    accEncode accounts name data = .ok (account_discriminator name ++ payload) ∧
    accDecode accounts (account_discriminator name ++ (payload ++ rest)) =
      .ok ((name, data), rest) := by
  refine ⟨rfl, ?_, ?_⟩
  · simp only [accEncode, hname, hdisc, henc, if_pos hlen]
  · have h8 : readN 8 (account_discriminator name ++ (payload ++ rest)) =
        .ok (account_discriminator name, payload ++ rest) := by
      rw [← hlen]; exact readN_append _ _
    simp only [accDecode, h8, hdisc, hdec]

/-- **C10** witness: one account `"X"` (code point 88) with a `u8`
layout, value `4`, payload byte `[4]`, trailing byte `[7]`. -/
theorem c10_witness :
    accEncode [([88], .u8)] [88] (.vInt 4) =
      .ok (account_discriminator [88] ++ [4]) ∧
    accDecode [([88], .u8)] (account_discriminator [88] ++ ([4] ++ [7])) =
      .ok (([88], .vInt 4), [7]) := by
  have h := c10_accounts_coder [([88], .u8)] [88] .u8 ([88], .u8)
    (.vInt 4) [4] [7]
    (by rfl)
    (by set_option maxRecDepth 4000 in rfl)
    (by set_option maxRecDepth 4000 in rfl)
    (by simp [encode, intBuild, toLE])
    (by simp [decode, readN, read1, intParse, fromLE, bindDec, mapFst])
  exact ⟨h.2.1, h.2.2⟩

end Borsh
